import Mathlib

/-!
# Email domain statistics: a model of `emaildomainstats.go`

The Go package reads a csv file, fans the data rows out to a pool of worker
goroutines over a channel, collects the extracted e-mail domains on a second
channel, counts them in a map and returns the counts sorted by domain.

The development below embeds the package as a small-step machine.  Every
goroutine of `DomainCounts` (the reader, the workers, the goroutine that closes
`results`, and the calling goroutine that aggregates) is a component of the
machine state; a schedule is a list of atomic actions, and every interleaving
the Go scheduler may choose is a schedule.

Conventions.
* Go strings are Lean `String`s.  The separator `"@"` is ASCII, so splitting on
  bytes and splitting on characters agree, and the byte-wise order used by
  `sort.Strings` is the code point order of `String`, compared here on the
  character lists so that it evaluates.
* `csv.Reader.Read` is a collaborator: a file is the list of results of the
  successive calls (`record` or `error`), the end of the list being `io.EOF`.
  Whatever the reader reports as an error is an `error` result here, the
  field-count check of `encoding/csv` included.
* The call has two phases.  Until it ends (`callStep`) the file is open and
  all goroutines run.  A return runs the deferred `file.Close()`; what is left
  of the goroutines runs on (`afterStep`): a reader that has not met `io.EOF`
  reads from the closed file sooner or later, and then calls `log.Fatal`.
* Go `int` configuration values are integers, and the machine is finite: a
  record `Limits` gives the largest channel capacity `make` can allocate and
  the largest number of worker goroutines the machine has memory for.
  `make(chan ..., n)` panics for a negative `n` and for an `n` above the
  first; starting more workers than the second ends the process in the run
  time (out of memory).
* The context is a flag: `ctxDone` says whether `ctx` is cancelled at the
  call, and the action `cancel` cancels it during the call.  A call under
  `context.Background()` is a schedule without `cancel`, started with the flag
  down.
* Go `int` counters are natural numbers: a counter is bounded by the number
  of rows of the file, far below `2^63`.
-/

namespace EmailDomainStats

/-! ## Data model -/

/-- DomainCount represents a single email domain and how many users use it. -/
structure DomainCount where
  Domain : String
  NumberOfUsers : Nat
deriving DecidableEq, Repr

/-- ParserConfig provides adjustable config options for the parser (Go `int` fields). -/
structure ParserConfig where
  WorkerCount : Int
  BufferSize : Int
deriving DecidableEq, Repr

/-- What the machine the program runs on can provide. -/
structure Limits where
  /-- The largest capacity `make` allocates for a channel of rows or of strings. -/
  maxCap : Nat
  /-- The largest number of worker goroutines there is memory for. -/
  maxWorkers : Nat
deriving DecidableEq, Repr

/-- One csv record: its fields in order. -/
abbrev Row := List String

/-- The result of one call of `reader.Read()` that is not `io.EOF`. -/
inductive ReadResult where
  | record (row : Row)
  | error (err : String)
deriving DecidableEq, Repr

/-! ## The worker's row handling (`worker`, lines 138-144) -/

/-- The pieces of a character sequence between occurrences of `@`:
`strings.Split(s, "@")` on the characters of `s`.  A sequence without `@`
gives one piece, the sequence itself. -/
def splitChars : List Char → List (List Char)
  | [] => [[]]
  | c :: cs =>
    if c = '@' then [] :: splitChars cs
    else
      match splitChars cs with
      | [] => [[c]]
      | p :: ps => (c :: p) :: ps

/-- The call `strings.Split(email, "@")`. -/
def Split (email : String) : List String :=
  (splitChars email.data).map String.mk

/-- What a worker does with one received row. -/
inductive RowEffect where
  | skip
  | send (domain : String)
  | indexOutOfRange
deriving DecidableEq, Repr

/-- The body of the `case row, ok := <-rows` branch of `worker` for a received
row: a row of more than three fields has its third field split on `@` and
`parts[1]` is sent on `results`; indexing `parts[1]` panics when the split has a
single piece.  Any other row is printed and skipped. -/
def worker (row : Row) : RowEffect :=
  if row.length > 3 then
    let email := row.getD 2 ""
    let parts := Split email
    match parts[1]? with
    | some domain => .send domain
    | none => .indexOutOfRange
  else
    .skip

/-! ## Aggregation and finalisation (`DomainCounts`, lines 106-127) -/

/-- The Go map `domainUserCount`, as an association list. -/
abbrev DomainMap := List (String × Nat)

/-- The map read `domainUserCount[domain]`: the zero value when the key is absent. -/
def lookupCount : DomainMap → String → Nat
  | [], _ => 0
  | (k, n) :: rest, d => if k = d then n else lookupCount rest d

/-- The statement `domainUserCount[result]++`. -/
def increment : DomainMap → String → DomainMap
  | [], d => [(d, 1)]
  | (k, n) :: rest, d => if k = d then (k, n + 1) :: rest else (k, n) :: increment rest d

/-- The loop `for result := range results { domainUserCount[result]++ }` over the
sequence of domains received on `results`. -/
def aggregate (results : List String) : DomainMap :=
  results.foldl increment []

/-- The comparison `a <= b` of two Go strings, byte by byte. -/
def byteLE (a b : String) : Prop := a.data ≤ b.data

instance byteLE.decidable : DecidableRel byteLE :=
  fun a b => inferInstanceAs (Decidable (a.data ≤ b.data))

/-- The call `sort.Strings(domains)`: the ascending rearrangement. -/
def sortStrings (domains : List String) : List String :=
  domains.insertionSort byteLE

/-- Lines 111-125: the keys of the map are collected, sorted, and paired with
their counts. -/
def domainUsage (domainUserCount : DomainMap) : List DomainCount :=
  (sortStrings (domainUserCount.map Prod.fst)).map
    fun domain => ⟨domain, lookupCount domainUserCount domain⟩

/-! ## The pipeline as a machine (`DomainCounts`, lines 53-128, and `worker`) -/

/-- How a call of `DomainCounts` ends.  `returned l` is the Go result `(l, nil)`,
`failed err` is `(nil, err)`, `fatal err` is the process exit of `log.Fatal(err)`
in the reader goroutine before the call returns, `panicked` is the death of the
process in the Go run time (an index out of range in a worker, `make` with a
capacity that is negative or too large to allocate, or no memory left for the
workers). -/
inductive Outcome where
  | returned (domainUsage : List DomainCount)
  | failed (err : String)
  | fatal (err : String)
  | panicked
deriving DecidableEq, Repr

/-- The reader goroutine (lines 82-98): about to call `reader.Read()`, blocked
in `rows <- row`, or not running: finished with `rows` closed, or never started
because the call returned before line 82. -/
inductive ReaderState where
  | reading
  | sending (row : Row)
  | done
deriving DecidableEq, Repr

/-- A worker goroutine (lines 130-149): waiting in its `select`, holding a
received row, blocked in `results <- parts[1]`, or returned. -/
inductive WorkerState where
  | idle
  | got (row : Row)
  | sending (domain : String)
  | exited
deriving DecidableEq, Repr

/-- The state of one call of `DomainCounts` and of the goroutines it started. -/
structure State where
  /-- The records `reader.Read()` has still to deliver; `io.EOF` follows them. -/
  pending : List ReadResult
  reader : ReaderState
  /-- The buffer of the channel `rows`, oldest first. -/
  rowsBuf : List Row
  workers : List WorkerState
  /-- The buffer of the channel `results`, oldest first. -/
  resultsBuf : List String
  /-- Whether `close(results)` has run. -/
  resultsClosed : Bool
  domainUserCount : DomainMap
  /-- Whether `ctx.Done()` is closed. -/
  ctxDone : Bool
  /-- The capacity `p.config.BufferSize` of both channels. -/
  bufferSize : Nat
  /-- How the call ended, once it has. -/
  outcome : Option Outcome
  /-- The error of the `log.Fatal` that ended the process after the call
  returned, once there is one. -/
  exit : Option String
deriving DecidableEq, Repr

/-- The atomic actions of the goroutines; `w` is the index of a worker. -/
inductive Action where
  /-- The context is cancelled from outside (once). -/
  | cancel
  /-- Reader: one call of `reader.Read()` and the branches on its result. -/
  | read
  /-- Reader, after the call returned: a call of `reader.Read()` that needs the
  file, which the return has closed. -/
  | readClosed
  /-- Reader: `rows <- row` into a free buffer slot. -/
  | sendRow
  /-- Reader and worker `w`: `rows <- row` meets the receive of the `select`. -/
  | handRow (w : Nat)
  /-- Worker `w`: receives the oldest buffered row. -/
  | recvRow (w : Nat)
  /-- Worker `w`: receives from the closed, drained `rows` and returns. -/
  | recvClosed (w : Nat)
  /-- Worker `w`: takes the branch `case <-ctx.Done()` and returns. -/
  | ctxExit (w : Nat)
  /-- Worker `w`: the body of the row branch up to the send. -/
  | process (w : Nat)
  /-- Worker `w`: `results <- parts[1]` into a free buffer slot. -/
  | sendResult (w : Nat)
  /-- Worker `w` and the caller: `results <- parts[1]` meets the `range` receive. -/
  | handResult (w : Nat)
  /-- The closing goroutine: `wg.Wait()` is over, `close(results)`. -/
  | closeResults
  /-- Caller: receives the oldest buffered result and increments its count. -/
  | mainRecv
  /-- Caller: the `range` loop ends, the counts are sorted and returned. -/
  | mainReturn
deriving DecidableEq, Repr

/-- One atomic action while the call runs; `none` when the action is not
enabled.  The file is open, so a read gives the next result of the file. -/
def callStep (s : State) (a : Action) : Option State :=
  if s.outcome.isSome then none else
  match a with
  | .readClosed => none
  | .cancel => if s.ctxDone then none else some { s with ctxDone := true }
  | .read =>
    match s.reader with
    | .reading =>
      match s.pending with
      | [] => some { s with reader := .done }
      | .error err :: _ => some { s with outcome := some (.fatal err) }
      | .record row :: rest => some { s with pending := rest, reader := .sending row }
    | _ => none
  | .sendRow =>
    match s.reader with
    | .sending row =>
      if s.rowsBuf.length < s.bufferSize then
        some { s with rowsBuf := s.rowsBuf ++ [row], reader := .reading }
      else none
    | _ => none
  | .handRow w =>
    match s.reader, s.workers[w]? with
    | .sending row, some .idle =>
      if s.rowsBuf = [] then
        some { s with reader := .reading, workers := s.workers.set w (.got row) }
      else none
    | _, _ => none
  | .recvRow w =>
    match s.rowsBuf, s.workers[w]? with
    | row :: rest, some .idle =>
      some { s with rowsBuf := rest, workers := s.workers.set w (.got row) }
    | _, _ => none
  | .recvClosed w =>
    match s.reader, s.rowsBuf, s.workers[w]? with
    | .done, [], some .idle => some { s with workers := s.workers.set w .exited }
    | _, _, _ => none
  | .ctxExit w =>
    match s.workers[w]? with
    | some .idle =>
      if s.ctxDone then some { s with workers := s.workers.set w .exited } else none
    | _ => none
  | .process w =>
    match s.workers[w]? with
    | some (.got row) =>
      match worker row with
      | .skip => some { s with workers := s.workers.set w .idle }
      | .send domain => some { s with workers := s.workers.set w (.sending domain) }
      | .indexOutOfRange => some { s with outcome := some .panicked }
    | _ => none
  | .sendResult w =>
    match s.workers[w]? with
    | some (.sending domain) =>
      if s.resultsBuf.length < s.bufferSize then
        some { s with resultsBuf := s.resultsBuf ++ [domain], workers := s.workers.set w .idle }
      else none
    | _ => none
  | .handResult w =>
    match s.workers[w]? with
    | some (.sending domain) =>
      if s.resultsBuf = [] then
        some { s with domainUserCount := increment s.domainUserCount domain,
                      workers := s.workers.set w .idle }
      else none
    | _ => none
  | .closeResults =>
    if s.resultsClosed = false ∧ s.workers.all (· = .exited) then
      some { s with resultsClosed := true }
    else none
  | .mainRecv =>
    match s.resultsBuf with
    | result :: rest =>
      some { s with resultsBuf := rest,
                    domainUserCount := increment s.domainUserCount result }
    | [] => none
  | .mainReturn =>
    if s.resultsClosed ∧ s.resultsBuf = [] then
      some { s with outcome := some (.returned (domainUsage s.domainUserCount)) }
    else none

/-- The text of `os.ErrClosed`, the error of a read on a closed file (the
`*PathError` that carries it names the operation and the file as well). -/
def fileAlreadyClosed : String := "file already closed"

/-- One atomic action after the call has returned and `file.Close()` has run.
The caller is gone; a worker still in its `select` can leave on `ctx.Done()`;
the reader goroutine, if it is still running, goes on: a record still in the
buffer of the csv reader is read as before, a read that needs the file fails,
and so does the read that would meet `io.EOF`; the failure ends the process in
`log.Fatal`, after which nothing runs. -/
def afterStep (s : State) (a : Action) : Option State :=
  if s.exit.isSome then none else
  match a with
  | .cancel => if s.ctxDone then none else some { s with ctxDone := true }
  | .ctxExit w =>
    match s.workers[w]? with
    | some .idle =>
      if s.ctxDone then some { s with workers := s.workers.set w .exited } else none
    | _ => none
  | .read =>
    match s.reader with
    | .reading =>
      match s.pending with
      | [] => some { s with exit := some fileAlreadyClosed }
      | .error err :: _ => some { s with exit := some err }
      | .record row :: rest => some { s with pending := rest, reader := .sending row }
    | _ => none
  | .readClosed =>
    match s.reader with
    | .reading => some { s with exit := some fileAlreadyClosed }
    | _ => none
  | .sendRow =>
    match s.reader with
    | .sending row =>
      if s.rowsBuf.length < s.bufferSize then
        some { s with rowsBuf := s.rowsBuf ++ [row], reader := .reading }
      else none
    | _ => none
  | _ => none

/-- One atomic action from a state: a step of the call while it runs, a step
of what it left behind once it has returned, nothing once the process is dead. -/
def step (s : State) (a : Action) : Option State :=
  match s.outcome with
  | none => callStep s a
  | some (.returned _) => afterStep s a
  | some (.failed _) => afterStep s a
  | some _ => none

/-- A schedule run while the call runs; `none` when one of its actions is not
enabled or comes after the end of the call. -/
def callExec (s : State) : List Action → Option State
  | [] => some s
  | a :: rest => (callStep s a).bind fun s' => callExec s' rest

/-- A schedule run from a state; `none` when one of its actions is not enabled. -/
def exec (s : State) : List Action → Option State
  | [] => some s
  | a :: rest => (step s a).bind fun s' => exec s' rest

/-- A state in which the call has ended before the reader goroutine was
started: the workers started so far are left in their `select`. -/
def ended (o : Outcome) (workers : List WorkerState) (ctxDone : Bool) : State :=
  { pending := [], reader := .done, rowsBuf := [], workers := workers, resultsBuf := [],
    resultsClosed := false, domainUserCount := [], ctxDone := ctxDone, bufferSize := 0,
    outcome := some o, exit := none }

/-- The schedule in which the reader reads the rows of a file into the buffer
of `rows` one after the other, and then reads once more. -/
def fillSchedule : List Row → List Action
  | [] => [.read]
  | _ :: rest => .read :: .sendRow :: fillSchedule rest

/-- A state of the running pipeline with both channel buffers empty. -/
def running (pending : List ReadResult) (reader : ReaderState) (workers : List WorkerState)
    (counts : DomainMap) (closed ctxDone : Bool) (bufferSize : Nat) : State :=
  { pending := pending, reader := reader, rowsBuf := [], workers := workers,
    resultsBuf := [], resultsClosed := closed, domainUserCount := counts,
    ctxDone := ctxDone, bufferSize := bufferSize, outcome := none, exit := none }

/-- Lines 54-79 of `DomainCounts`: the file is opened (`file` is the error of
`os.Open`, or the results the csv reader will give), the two channels are made
(lines 62-63: `make` panics on a negative capacity and on one above
`lim.maxCap`), `WorkerCount` workers are started (lines 67-73: none when the
count is not positive; the process dies when it is above `lim.maxWorkers`),
and the header is read and dropped; a header that cannot be read, `io.EOF`
included, is returned as the error, the workers staying behind. -/
def start (lim : Limits) (p : ParserConfig) (ctxDone : Bool)
    (file : Except String (List ReadResult)) : State :=
  match file with
  | .error err => ended (.failed err) [] ctxDone
  | .ok records =>
    if p.BufferSize < 0 ∨ (lim.maxCap : Int) < p.BufferSize
        ∨ (lim.maxWorkers : Int) < p.WorkerCount then
      ended .panicked [] ctxDone
    else
      match records with
      | [] => ended (.failed "EOF") (List.replicate p.WorkerCount.toNat .idle) ctxDone
      | .error err :: _ =>
        ended (.failed err) (List.replicate p.WorkerCount.toNat .idle) ctxDone
      | .record _ :: rest =>
        { pending := rest, reader := .reading, rowsBuf := [],
          workers := List.replicate p.WorkerCount.toNat .idle, resultsBuf := [],
          resultsClosed := false, domainUserCount := [], ctxDone := ctxDone,
          bufferSize := p.BufferSize.toNat, outcome := none, exit := none }

/-- The state a call of `DomainCounts` is in after a schedule of the call itself. -/
def callRun (lim : Limits) (p : ParserConfig) (ctxDone : Bool)
    (file : Except String (List ReadResult)) (sched : List Action) : Option State :=
  callExec (start lim p ctxDone file) sched

/-- The outcome of the call after a schedule of the call itself. -/
def callOutcome (lim : Limits) (p : ParserConfig) (ctxDone : Bool)
    (file : Except String (List ReadResult)) (sched : List Action) : Option Outcome :=
  (callRun lim p ctxDone file sched).bind (·.outcome)

/-- The state of a call of `DomainCounts` and of its goroutines after a schedule. -/
def run (lim : Limits) (p : ParserConfig) (ctxDone : Bool)
    (file : Except String (List ReadResult)) (sched : List Action) : Option State :=
  exec (start lim p ctxDone file) sched

/-- DomainCounts returns a sorted slice of email domains and number of users
that use them: the outcome of the call under a schedule, `none` while the call
has not ended (or for a schedule the goroutines cannot follow).  `lim` gives
the limits of the machine, `ctxDone` tells whether `ctx` is already cancelled
at the call. -/
def DomainCounts (lim : Limits) (p : ParserConfig) (ctxDone : Bool)
    (file : Except String (List ReadResult)) (sched : List Action) : Option Outcome :=
  (run lim p ctxDone file sched).bind (·.outcome)

/-- The error with which a goroutine left behind ended the process in
`log.Fatal` after the call returned, if that has happened under the schedule. -/
def processExit (lim : Limits) (p : ParserConfig) (ctxDone : Bool)
    (file : Except String (List ReadResult)) (sched : List Action) : Option String :=
  (run lim p ctxDone file sched).bind (·.exit)

/-- The row a worker receives in the step, if the step is a receive. -/
def delivered (s : State) (a : Action) : List Row :=
  match a with
  | .handRow _ =>
    match s.reader with
    | .sending row => [row]
    | _ => []
  | .recvRow _ => s.rowsBuf.take 1
  | _ => []

/-- The rows the workers receive along a schedule, in the order of the receives. -/
def deliveries (s : State) : List Action → List Row
  | [] => []
  | a :: rest =>
    match step s a with
    | none => []
    | some s' => delivered s a ++ deliveries s' rest

/-- The rows passed to the workers of a call along a schedule, in order. -/
def received (lim : Limits) (p : ParserConfig) (ctxDone : Bool)
    (file : Except String (List ReadResult)) (sched : List Action) : List Row :=
  deliveries (start lim p ctxDone file) sched

/-! ## Specification-side notions -/

/-- The domain a row contributes, if its handling sends one. -/
def rowDomain (row : Row) : Option String :=
  match worker row with
  | .send domain => some domain
  | _ => none

/-- The domains a list of rows contributes: one per row whose handling sends. -/
def sentDomains (rows : List Row) : List String :=
  rows.filterMap rowDomain

/-- The rows among the records of a file. -/
def recordRows (records : List ReadResult) : List Row :=
  records.filterMap fun r =>
    match r with
    | .record row => some row
    | .error _ => none

/-- The records after the header. -/
def dataRecords : Except String (List ReadResult) → List ReadResult
  | .ok (_ :: rest) => rest
  | _ => []

/-- The data rows of a file: the rows among the records after the header. -/
def dataRows (file : Except String (List ReadResult)) : List Row :=
  recordRows (dataRecords file)

/-- The keys of the map. -/
def keys (m : DomainMap) : List String := m.map Prod.fst

/-- A map as Go builds it: no key twice, and every stored count positive. -/
def WellFormed (m : DomainMap) : Prop :=
  (keys m).Nodup ∧ ∀ p ∈ m, 0 < p.2

/-- The substring of an e-mail address following its first `@`, in the words
of the specification's glossary; empty when the address has no `@`. -/
def afterFirstAt (email : String) : String :=
  String.mk ((email.data.dropWhile (· ≠ '@')).drop 1)

/-! ## Conserved quantities and invariants -/

/-- The domains a worker holds and has not yet handed to the caller. -/
def workerOwes : WorkerState → List String
  | .got row => (rowDomain row).toList
  | .sending domain => [domain]
  | _ => []

/-- The domains the reader holds in a row it is sending. -/
def readerOwes : ReaderState → List String
  | .sending row => (rowDomain row).toList
  | _ => []

/-- How often a domain occurs in the state: counted in the map, or still on
its way there (in `results`, in a worker, in `rows`, in the reader, in the part
of the file not yet read). -/
def mass (s : State) (d : String) : Nat :=
  lookupCount s.domainUserCount d + s.resultsBuf.count d
    + (s.workers.map fun w => (workerOwes w).count d).sum
    + (sentDomains s.rowsBuf).count d + (readerOwes s.reader).count d
    + (sentDomains (recordRows s.pending)).count d

/-- The row the reader holds. -/
def readerRow : ReaderState → List Row
  | .sending row => [row]
  | _ => []

/-- The rows on their way to the workers, in file order: those buffered in
`rows`, the one the reader holds, those not yet read. -/
def flow (s : State) : List Row :=
  s.rowsBuf ++ readerRow s.reader ++ recordRows s.pending

/-- The facts about a state that every step of the call keeps. -/
structure Inv (s : State) : Prop where
  wf : WellFormed s.domainUserCount
  closed : s.resultsClosed = true → ∀ w ∈ s.workers, w = .exited
  drained : s.ctxDone = false → WorkerState.exited ∈ s.workers →
    s.reader = .done ∧ s.rowsBuf = []
  eof : s.reader = .done → s.pending = []

/-- Whether handling the row panics in `parts[1]`. -/
def isBad (row : Row) : Bool := decide (worker row = .indexOutOfRange)

/-- Whether a record is a read error. -/
def isError : ReadResult → Bool
  | .error _ => true
  | .record _ => false

/-- The bad row a worker holds, counted. -/
def workerBad : WorkerState → Nat
  | .got row => if isBad row then 1 else 0
  | _ => 0

/-- The bad row the reader holds, counted. -/
def readerBad : ReaderState → Nat
  | .sending row => if isBad row then 1 else 0
  | _ => 0

/-- The error records not yet read and the bad rows not yet handled. -/
def hazards (s : State) : Nat :=
  s.pending.countP isError + (recordRows s.pending).countP isBad + readerBad s.reader
    + s.rowsBuf.countP isBad + (s.workers.map workerBad).sum

/-! ## A schedule that always completes -/

/-- The actions that carry one row through worker 0: read, hand over, handle,
and hand the domain to the caller if one is sent. -/
def rowSchedule (row : Row) : List Action :=
  match worker row with
  | .send _ => [.read, .handRow 0, .process 0, .handResult 0]
  | _ => [.read, .handRow 0, .process 0]

/-- The actions that carry a list of rows through worker 0, one after the other. -/
def feedSchedule : List Row → List Action
  | [] => []
  | row :: rest => rowSchedule row ++ feedSchedule rest

/-- The schedule in which worker 0 handles every row in file order, then the
reader meets `io.EOF`, every worker sees `rows` closed, `results` is closed and
the caller returns. -/
def sequentialSchedule (p : ParserConfig) (rows : List Row) : List Action :=
  feedSchedule rows ++ .read :: ((List.range' 0 p.WorkerCount.toNat).map Action.recvClosed
    ++ [.closeResults, .mainReturn])

/-! ## A bound on the steps left -/

/-- The steps the reader still has to take for what it holds. -/
def readerWeight : ReaderState → Nat
  | .reading => 1
  | .sending _ => 6
  | .done => 0

/-- The steps a worker still has to take for what it holds, and to return. -/
def workerWeight : WorkerState → Nat
  | .idle => 1
  | .got _ => 4
  | .sending _ => 3
  | .exited => 0

/-- A bound on the number of steps left: every step lowers it. -/
def measure (s : State) : Nat :=
  (if s.outcome.isSome then 0 else 1) + (if s.exit.isSome then 0 else 1)
    + (if s.ctxDone then 0 else 1)
    + (if s.resultsClosed then 0 else 1) + 7 * s.pending.length + readerWeight s.reader
    + 4 * s.rowsBuf.length + (s.workers.map workerWeight).sum + s.resultsBuf.length

/-! ## Sample inputs and schedules -/

/-- A four-column header. -/
def sampleHeader : Row := ["id", "first_name", "email", "gender"]

/-- The example of the specification: addresses `a@x.com`, `b@y.com`, `c@x.com`. -/
def sampleFile : Except String (List ReadResult) :=
  .ok [.record sampleHeader,
    .record ["1", "ann", "a@x.com", "F"],
    .record ["2", "bob", "b@y.com", "M"],
    .record ["3", "cat", "c@x.com", "F"]]

/-- A machine that allocates channels of up to a thousand slots and runs up to
a thousand workers. -/
def sampleLimits : Limits := ⟨1000, 1000⟩

/-- One worker, unbuffered channels. -/
def oneWorker : ParserConfig := ⟨1, 0⟩

/-- Ten workers, channels of capacity ten. -/
def tenWorkers : ParserConfig := ⟨10, 10⟩

/-- A schedule for `oneWorker` on a file of three sending rows: every row is
handed to the worker and its domain handed on before the next is read. -/
def sampleSchedule : List Action :=
  [.read, .handRow 0, .process 0, .handResult 0,
   .read, .handRow 0, .process 0, .handResult 0,
   .read, .handRow 0, .process 0, .handResult 0,
   .read, .recvClosed 0, .closeResults, .mainReturn]

/-- A schedule for `tenWorkers` on a file of three sending rows: the rows are
buffered, taken by three workers, and their domains arrive in reverse order. -/
def bufferedSchedule : List Action :=
  [.read, .sendRow, .read, .sendRow, .read, .sendRow, .read,
   .recvRow 0, .recvRow 1, .recvRow 2, .process 2, .process 1, .process 0,
   .sendResult 2, .sendResult 1, .sendResult 0, .mainRecv, .mainRecv, .mainRecv,
   .recvClosed 0, .recvClosed 1, .recvClosed 2, .recvClosed 3, .recvClosed 4,
   .recvClosed 5, .recvClosed 6, .recvClosed 7, .recvClosed 8, .recvClosed 9,
   .closeResults, .mainReturn]

/-- A file whose only data row has four fields and no `@` in the third. -/
def atlessFile : Except String (List ReadResult) :=
  .ok [.record sampleHeader, .record ["1", "bob", "bob.example.com", "M"]]

/-- A file whose only data row has the address `bob@`. -/
def emptyDomainFile : Except String (List ReadResult) :=
  .ok [.record sampleHeader, .record ["1", "bob", "bob@", "M"]]

/-- A file with a good row followed by a record the csv reader fails on. -/
def brokenFile : Except String (List ReadResult) :=
  .ok [.record sampleHeader, .record ["1", "ann", "a@x.com", "F"],
    .error "parse error on line 3"]

/-- The zero value of `ParserConfig`: no worker, unbuffered channels. -/
def noWorkers : ParserConfig := ⟨0, 0⟩

/-- No worker, channels of capacity ten. -/
def noWorkersBuffered : ParserConfig := ⟨0, 10⟩

/-- No worker and a negative buffer size. -/
def noWorkersNegative : ParserConfig := ⟨0, -1⟩

/-- A schedule for `noWorkersBuffered` on a file of two rows: the caller
returns at once, the reader goroutine reads on after the return. -/
def noWorkersSchedule : List Action :=
  [.closeResults, .mainReturn, .read, .sendRow, .read, .sendRow, .read]

/-- One worker and a negative buffer size. -/
def negativeBuffer : ParserConfig := ⟨1, -1⟩

/-- A schedule for `oneWorker` on a file of one sending row. -/
def oneRowSchedule : List Action :=
  [.read, .handRow 0, .process 0, .handResult 0, .read, .recvClosed 0, .closeResults,
   .mainReturn]

/-! ## Lemmas on the map and the finaliser -/

theorem byteLE_iff (a b : String) : byteLE a b ↔ a ≤ b :=
  String.le_iff_toList_le.symm

theorem byteLE_total : IsTotal String byteLE :=
  ⟨fun a b => by simpa only [byteLE_iff] using le_total a b⟩

theorem byteLE_trans : IsTrans String byteLE :=
  ⟨fun a b c hab hbc => by
    rw [byteLE_iff] at *
    exact le_trans hab hbc⟩

theorem byteLE_antisymm : IsAntisymm String byteLE :=
  ⟨fun a b hab hba => by
    rw [byteLE_iff] at *
    exact le_antisymm hab hba⟩

theorem sortStrings_sorted (l : List String) : (sortStrings l).Sorted byteLE :=
  haveI := byteLE_total
  haveI := byteLE_trans
  List.sorted_insertionSort byteLE l

theorem sortStrings_perm (l : List String) : (sortStrings l).Perm l :=
  List.perm_insertionSort byteLE l

theorem sortStrings_congr {l₁ l₂ : List String} (h : l₁.Perm l₂) :
    sortStrings l₁ = sortStrings l₂ :=
  haveI := byteLE_antisymm
  List.eq_of_perm_of_sorted
    (((sortStrings_perm l₁).trans h).trans (sortStrings_perm l₂).symm)
    (sortStrings_sorted l₁) (sortStrings_sorted l₂)

theorem sortStrings_strict {l : List String} (h : l.Nodup) :
    (sortStrings l).Sorted (· < ·) := by
  have hs : (sortStrings l).Sorted (· ≤ ·) :=
    (sortStrings_sorted l).imp fun {a b} hab => (byteLE_iff a b).1 hab
  exact hs.lt_of_le ((sortStrings_perm l).nodup_iff.2 h)

theorem lookupCount_increment (m : DomainMap) (d k : String) :
    lookupCount (increment m d) k = lookupCount m k + if d = k then 1 else 0 := by
  induction m with
  | nil => simp [increment, lookupCount]
  | cons p rest ih =>
    obtain ⟨k', n⟩ := p
    by_cases h1 : k' = d
    · subst h1
      by_cases h2 : k' = k
      · simp [increment, lookupCount, h2]
      · simp [increment, lookupCount, h2]
    · by_cases h2 : k' = k
      · subst h2
        simp [increment, lookupCount, h1, Ne.symm h1]
      · simp [increment, lookupCount, h1, h2, ih]

theorem keys_increment (m : DomainMap) (d : String) :
    keys (increment m d) = if d ∈ keys m then keys m else keys m ++ [d] := by
  induction m with
  | nil => simp [increment, keys]
  | cons p rest ih =>
    obtain ⟨k', n⟩ := p
    by_cases h1 : k' = d
    · subst h1
      simp [increment, keys]
    · have ih' := ih
      simp only [keys] at ih'
      simp only [increment, keys, h1, if_false, List.map_cons, List.mem_cons, Ne.symm h1,
        false_or, ih']
      split <;> simp

theorem WellFormed.nil : WellFormed [] := by
  simp [WellFormed, keys]

theorem WellFormed.increment {m : DomainMap} (h : WellFormed m) (d : String) :
    WellFormed (increment m d) := by
  refine ⟨?_, ?_⟩
  · rw [keys_increment]
    split
    · exact h.1
    · rename_i hd
      exact List.Nodup.append h.1 (List.nodup_singleton d) (by simpa using hd)
  · have hpos := h.2
    clear h
    induction m with
    | nil => simp [EmailDomainStats.increment]
    | cons p rest ih =>
      obtain ⟨k', n⟩ := p
      intro q hq
      by_cases h1 : k' = d
      · simp only [EmailDomainStats.increment, h1, if_true, List.mem_cons] at hq
        rcases hq with rfl | hq
        · exact Nat.succ_pos _
        · exact hpos q (List.mem_cons_of_mem _ hq)
      · simp only [EmailDomainStats.increment, h1, if_false, List.mem_cons] at hq
        rcases hq with rfl | hq
        · exact hpos _ (List.mem_cons_self _ _)
        · exact ih (fun r hr => hpos r (List.mem_cons_of_mem _ hr)) q hq

theorem mem_keys_iff {m : DomainMap} (h : ∀ p ∈ m, 0 < p.2) (k : String) :
    k ∈ keys m ↔ 0 < lookupCount m k := by
  induction m with
  | nil => simp [keys, lookupCount]
  | cons p rest ih =>
    obtain ⟨k', n⟩ := p
    have hn : 0 < n := h (k', n) (List.mem_cons_self _ _)
    have ih' := ih fun r hr => h r (List.mem_cons_of_mem _ hr)
    simp only [keys] at ih'
    by_cases h1 : k' = k
    · simp [keys, lookupCount, h1, hn]
    · simp [keys, lookupCount, h1, Ne.symm h1, ih']

theorem domainUsage_congr {m₁ m₂ : DomainMap} (h₁ : WellFormed m₁) (h₂ : WellFormed m₂)
    (h : ∀ k, lookupCount m₁ k = lookupCount m₂ k) : domainUsage m₁ = domainUsage m₂ := by
  have hk : (keys m₁).Perm (keys m₂) :=
    (List.perm_ext_iff_of_nodup h₁.1 h₂.1).2 fun k => by
      rw [mem_keys_iff h₁.2, mem_keys_iff h₂.2, h k]
  have hf : (fun domain => (⟨domain, lookupCount m₁ domain⟩ : DomainCount))
      = fun domain => ⟨domain, lookupCount m₂ domain⟩ := by
    funext k
    rw [h k]
  unfold domainUsage
  rw [hf]
  exact congrArg _ (sortStrings_congr hk)

theorem aggregate_foldl (m : DomainMap) (l : List String) (k : String) :
    lookupCount (l.foldl increment m) k = lookupCount m k + l.count k := by
  induction l generalizing m with
  | nil => simp
  | cons d rest ih =>
    rw [List.foldl_cons, ih, lookupCount_increment, List.count_cons]
    by_cases h : d = k
    · simp [h, Nat.add_comm, Nat.add_left_comm]
    · simp [h]

theorem lookupCount_aggregate (l : List String) (k : String) :
    lookupCount (aggregate l) k = l.count k := by
  simp [aggregate, aggregate_foldl, lookupCount]

theorem WellFormed.foldl {m : DomainMap} (h : WellFormed m) (l : List String) :
    WellFormed (l.foldl EmailDomainStats.increment m) := by
  induction l generalizing m with
  | nil => exact h
  | cons d rest ih => exact ih (h.increment d)

theorem WellFormed.aggregate (l : List String) : WellFormed (aggregate l) :=
  WellFormed.nil.foldl l

theorem domainUsage_domains (m : DomainMap) :
    (domainUsage m).map (·.Domain) = sortStrings (keys m) := by
  simp [domainUsage, keys, Function.comp_def]

theorem domainUsage_strict {m : DomainMap} (h : WellFormed m) :
    ((domainUsage m).map (·.Domain)).Sorted (· < ·) := by
  rw [domainUsage_domains]
  exact sortStrings_strict h.1

/-! ## Every step keeps the invariants -/

theorem sum_map_set (f : WorkerState → Nat) (l : List WorkerState) (w : Nat)
    (old new : WorkerState) (h : l[w]? = some old) :
    ((l.set w new).map f).sum + f old = (l.map f).sum + f new := by
  induction l generalizing w with
  | nil => simp at h
  | cons x rest ih =>
    cases w with
    | zero =>
      simp at h
      subst h
      simp
      omega
    | succ n =>
      simp at h
      have := ih n h
      simp only [List.set_cons_succ, List.map_cons, List.sum_cons]
      omega

theorem sentDomains_cons (row : Row) (rows : List Row) :
    sentDomains (row :: rows) = (rowDomain row).toList ++ sentDomains rows := by
  simp only [sentDomains, List.filterMap_cons]
  split <;> simp [*]

theorem sentDomains_append (l₁ l₂ : List Row) :
    sentDomains (l₁ ++ l₂) = sentDomains l₁ ++ sentDomains l₂ := by
  simp [sentDomains, List.filterMap_append]

theorem sentDomains_nil : sentDomains [] = [] := rfl

theorem rowDomain_send {row : Row} {d : String} (h : worker row = .send d) :
    rowDomain row = some d := by
  simp [rowDomain, h]

theorem rowDomain_skip {row : Row} (h : worker row = .skip) :
    rowDomain row = none := by
  simp [rowDomain, h]

theorem step_outcome_none {s s' : State} {a : Action} (h : callStep s a = some s') :
    s.outcome = none := by
  unfold callStep at h
  split at h
  · simp at h
  · simpa using ‹¬ s.outcome.isSome = true›

theorem step_workers_length {s s' : State} {a : Action} (h : callStep s a = some s') :
    s'.workers.length = s.workers.length := by
  unfold callStep at h
  split at h
  · simp at h
  · cases a <;> simp only at h <;> (repeat' split at h) <;> simp at h <;> subst h <;> simp

theorem step_ctxDone {s s' : State} {a : Action} (h : callStep s a = some s')
    (ha : a ≠ .cancel) : s'.ctxDone = s.ctxDone := by
  unfold callStep at h
  split at h
  · simp at h
  · cases a <;> simp only at h <;> (repeat' split at h) <;> simp at h <;>
      first | exact absurd rfl ha | (subst h; simp)

theorem le_sum_map (f : WorkerState → Nat) (l : List WorkerState) (w : Nat)
    (old : WorkerState) (h : l[w]? = some old) : f old ≤ (l.map f).sum := by
  have := sum_map_set f l w old old h
  have hmem : f old ∈ l.map f := List.mem_map_of_mem f (List.getElem?_mem h)
  exact List.single_le_sum (fun _ _ => Nat.zero_le _) _ hmem

theorem sum_map_set_eq (f : WorkerState → Nat) (l : List WorkerState) (w : Nat)
    (old new : WorkerState) (h : l[w]? = some old) :
    ((l.set w new).map f).sum = (l.map f).sum + f new - f old := by
  have := sum_map_set f l w old new h
  omega

theorem recordRows_cons_record (row : Row) (rest : List ReadResult) :
    recordRows (.record row :: rest) = row :: recordRows rest := by
  simp [recordRows]

theorem step_mass {s s' : State} {a : Action} (h : callStep s a = some s') (d : String) :
    mass s' d = mass s d := by
  unfold callStep at h
  split at h
  · simp at h
  · cases a <;> simp only at h <;> (repeat' split at h) <;> simp at h <;> subst h <;>
      simp only [mass]
    all_goals
      try (have hle := le_sum_map (fun w => (workerOwes w).count d) _ _ _ ‹_[_]? = some _›)
      try (rw [sum_map_set_eq (fun w => (workerOwes w).count d) _ _ _ _ ‹_[_]? = some _›])
      try (have hsend := rowDomain_send ‹worker _ = .send _›)
      try (have hskip := rowDomain_skip ‹worker _ = .skip›)
      simp_all [readerOwes, workerOwes, recordRows_cons_record, sentDomains_append,
        sentDomains_cons, sentDomains_nil, lookupCount_increment, List.count_cons,
        List.count_singleton]
      try omega

theorem step_wellFormed {s s' : State} {a : Action} (h : callStep s a = some s')
    (hi : WellFormed s.domainUserCount) : WellFormed s'.domainUserCount := by
  unfold callStep at h
  split at h
  · simp at h
  · cases a <;> simp only at h <;> (repeat' split at h) <;> simp at h <;> subst h <;>
      first | exact hi | exact hi.increment _

theorem step_closed {s s' : State} {a : Action} (h : callStep s a = some s')
    (hi : s.resultsClosed = true → ∀ w ∈ s.workers, w = .exited) :
    s'.resultsClosed = true → ∀ w ∈ s'.workers, w = .exited := by
  unfold callStep at h
  split at h
  · simp at h
  · cases a <;> simp only at h <;> (repeat' split at h) <;> simp at h <;> subst h <;>
      simp only <;> intro hc
    all_goals
      try (have hmem := List.getElem?_mem ‹_[_]? = some _›)
      try (have hx := hi hc _ hmem)
      simp_all <;> first | assumption | exact (‹_ ∧ _›).2

theorem step_drained {s s' : State} {a : Action} (h : callStep s a = some s')
    (hi : s.ctxDone = false → WorkerState.exited ∈ s.workers →
      s.reader = .done ∧ s.rowsBuf = []) :
    s'.ctxDone = false → WorkerState.exited ∈ s'.workers →
      s'.reader = .done ∧ s'.rowsBuf = [] := by
  unfold callStep at h
  split at h
  · simp at h
  · cases a <;> simp only at h <;> (repeat' split at h) <;> simp at h <;> subst h <;>
      simp only <;> intro hc hmem
    all_goals
      first
      | cases hc
      | (rcases List.mem_or_eq_of_mem_set hmem with hmem' | heq'
         · have := hi hc hmem'
           simp_all
         · simp_all)
      | (have hx := hi hc hmem
         simp_all)

theorem step_eof {s s' : State} {a : Action} (h : callStep s a = some s')
    (hi : s.reader = .done → s.pending = []) : s'.reader = .done → s'.pending = [] := by
  unfold callStep at h
  split at h
  · simp at h
  · cases a <;> simp only at h <;> (repeat' split at h) <;> simp at h <;> subst h <;>
      simp_all

theorem step_returned {s s' : State} {a : Action} (h : callStep s a = some s')
    (L : List DomainCount) (hL : s'.outcome = some (.returned L)) :
    s'.resultsClosed = true ∧ s'.resultsBuf = [] ∧ L = domainUsage s'.domainUserCount := by
  have hnone := step_outcome_none h
  unfold callStep at h
  split at h
  · simp at h
  · cases a <;> simp only at h <;> (repeat' split at h) <;> simp at h <;> subst h <;>
      simp_all

theorem step_not_failed {s s' : State} {a : Action} (h : callStep s a = some s')
    (err : String) : s'.outcome ≠ some (.failed err) := by
  have hnone := step_outcome_none h
  unfold callStep at h
  split at h
  · simp at h
  · cases a <;> simp only at h <;> (repeat' split at h) <;> simp at h <;> subst h <;>
      simp_all

theorem step_inv {s s' : State} {a : Action} (h : callStep s a = some s') (hi : Inv s) :
    Inv s' :=
  ⟨step_wellFormed h hi.wf, step_closed h hi.closed, step_drained h hi.drained,
    step_eof h hi.eof⟩

/-! ## Runs keep the invariants -/

theorem exec_cons {s s' : State} {a : Action} {rest : List Action}
    (h : callExec s (a :: rest) = some s') : ∃ s₁, callStep s a = some s₁ ∧ callExec s₁ rest = some s' := by
  simp only [callExec] at h
  cases hs : callStep s a with
  | none => simp [hs] at h
  | some s₁ => exact ⟨s₁, rfl, by simpa [hs] using h⟩

theorem exec_inv {sched : List Action} {s s' : State} (h : callExec s sched = some s')
    (hi : Inv s) : Inv s' := by
  induction sched generalizing s with
  | nil =>
    simp only [callExec, Option.some.injEq] at h
    exact h ▸ hi
  | cons a rest ih =>
    obtain ⟨s₁, h₁, h₂⟩ := exec_cons h
    exact ih h₂ (step_inv h₁ hi)

theorem exec_mass {sched : List Action} {s s' : State} (h : callExec s sched = some s')
    (d : String) : mass s' d = mass s d := by
  induction sched generalizing s with
  | nil =>
    simp only [callExec, Option.some.injEq] at h
    rw [h]
  | cons a rest ih =>
    obtain ⟨s₁, h₁, h₂⟩ := exec_cons h
    rw [ih h₂, step_mass h₁]

theorem exec_workers_length {sched : List Action} {s s' : State}
    (h : callExec s sched = some s') : s'.workers.length = s.workers.length := by
  induction sched generalizing s with
  | nil =>
    simp only [callExec, Option.some.injEq] at h
    rw [h]
  | cons a rest ih =>
    obtain ⟨s₁, h₁, h₂⟩ := exec_cons h
    rw [ih h₂, step_workers_length h₁]

theorem exec_ctxDone {sched : List Action} {s s' : State} (h : callExec s sched = some s')
    (hc : Action.cancel ∉ sched) : s'.ctxDone = s.ctxDone := by
  induction sched generalizing s with
  | nil =>
    simp only [callExec, Option.some.injEq] at h
    rw [h]
  | cons a rest ih =>
    obtain ⟨s₁, h₁, h₂⟩ := exec_cons h
    rw [ih h₂ fun hm => hc (List.mem_cons_of_mem _ hm),
      step_ctxDone h₁ fun ha => hc (ha ▸ List.mem_cons_self _ _)]

/-- A call that has ended takes no further step. -/
theorem exec_ended {sched : List Action} {s s' : State} (h : callExec s sched = some s')
    (ho : s.outcome ≠ none) : s' = s ∧ sched = [] := by
  cases sched with
  | nil =>
    simp only [callExec, Option.some.injEq] at h
    exact ⟨h.symm, rfl⟩
  | cons a rest =>
    obtain ⟨s₁, h₁, _⟩ := exec_cons h
    exact absurd (step_outcome_none h₁) ho

/-- The outcome of a run from a state that has not ended was set by the last
step, taken from a state the run reached. -/
theorem exec_last {sched : List Action} {s s' : State} (h : callExec s sched = some s')
    (hs : s.outcome = none) (ho : s'.outcome ≠ none) :
    ∃ pre s₀ a, callExec s pre = some s₀ ∧ callStep s₀ a = some s' := by
  induction sched generalizing s with
  | nil =>
    simp only [callExec, Option.some.injEq] at h
    exact absurd (h ▸ hs) ho
  | cons a rest ih =>
    obtain ⟨s₁, h₁, h₂⟩ := exec_cons h
    by_cases h₁o : s₁.outcome = none
    · obtain ⟨pre, s₀, b, hpre, hb⟩ := ih h₂ h₁o
      exact ⟨a :: pre, s₀, b, by simp [callExec, h₁, hpre], hb⟩
    · obtain ⟨he, _⟩ := exec_ended h₂ h₁o
      exact ⟨[], s, a, rfl, he ▸ h₁⟩

theorem sum_map_replicate_idle (n : Nat) (d : String) :
    ((List.replicate n WorkerState.idle).map fun w => (workerOwes w).count d).sum = 0 := by
  induction n with
  | zero => simp
  | succ k ih => simp [List.replicate_succ, workerOwes]

theorem sum_map_exited {l : List WorkerState} (h : ∀ w ∈ l, w = .exited) (d : String) :
    (l.map fun w => (workerOwes w).count d).sum = 0 := by
  induction l with
  | nil => simp
  | cons x rest ih =>
    have hx : x = .exited := h x (List.mem_cons_self _ _)
    have := ih fun w hw => h w (List.mem_cons_of_mem _ hw)
    simp only [List.map_cons, List.sum_cons, this, hx]
    simp [workerOwes]

theorem start_inv (lim : Limits) (p : ParserConfig) (ctxDone : Bool)
    (file : Except String (List ReadResult)) : Inv (start lim p ctxDone file) := by
  unfold start
  split
  · exact ⟨WellFormed.nil, by simp [ended], by simp [ended], by simp [ended]⟩
  · split
    · exact ⟨WellFormed.nil, by simp [ended], by simp [ended], by simp [ended]⟩
    · split
      · exact ⟨WellFormed.nil, by simp [ended], by simp [ended, List.mem_replicate],
          by simp [ended]⟩
      · exact ⟨WellFormed.nil, by simp [ended], by simp [ended, List.mem_replicate],
          by simp [ended]⟩
      · exact ⟨WellFormed.nil, by simp, by simp [List.mem_replicate], by simp⟩

theorem start_cases (lim : Limits) (p : ParserConfig) (ctxDone : Bool)
    (file : Except String (List ReadResult)) :
    (∃ o ws, start lim p ctxDone file = ended o ws ctxDone ∧ ∀ L, o ≠ .returned L) ∨
    (0 ≤ p.BufferSize ∧ p.BufferSize ≤ lim.maxCap ∧ ∃ header rest,
      file = .ok (.record header :: rest) ∧
      start lim p ctxDone file =
        running rest .reading (List.replicate p.WorkerCount.toNat .idle) [] false ctxDone
          p.BufferSize.toNat) := by
  unfold start
  split
  · exact Or.inl ⟨_, _, rfl, by simp⟩
  · split
    · exact Or.inl ⟨_, _, rfl, by simp⟩
    · rename_i hb
      split
      · exact Or.inl ⟨_, _, rfl, by simp⟩
      · exact Or.inl ⟨_, _, rfl, by simp⟩
      · exact Or.inr ⟨by omega, by omega, _, _, rfl, rfl⟩

theorem start_running (lim : Limits) (p : ParserConfig) (ctxDone : Bool) (header : Row)
    (rest : List ReadResult) (hB : 0 ≤ p.BufferSize) (hB' : p.BufferSize ≤ lim.maxCap)
    (hW' : p.WorkerCount ≤ lim.maxWorkers) :
    start lim p ctxDone (.ok (.record header :: rest))
      = running rest .reading (List.replicate p.WorkerCount.toNat .idle) [] false ctxDone
          p.BufferSize.toNat := by
  have hneg : ¬ (p.BufferSize < 0 ∨ (lim.maxCap : Int) < p.BufferSize
      ∨ (lim.maxWorkers : Int) < p.WorkerCount) := by omega
  simp [start, hneg, running]

theorem start_mass (lim : Limits) (p : ParserConfig) (ctxDone : Bool)
    (file : Except String (List ReadResult)) (h : (start lim p ctxDone file).outcome = none)
    (d : String) :
    mass (start lim p ctxDone file) d = (sentDomains (dataRows file)).count d := by
  rcases start_cases lim p ctxDone file with ⟨o, ws, ho, _⟩ | ⟨_, _, header, rest, hf, hs⟩
  · rw [ho] at h
    simp [ended] at h
  · rw [hs, hf]
    simp only [mass, running, sum_map_replicate_idle]
    simp [lookupCount, sentDomains_nil, readerOwes, dataRows, dataRecords]

/-! ## What a returning call returns -/

theorem DomainCounts_eq_some {lim : Limits} {p : ParserConfig} {ctxDone : Bool}
    {file : Except String (List ReadResult)} {sched : List Action} {o : Outcome} :
    callOutcome lim p ctxDone file sched = some o ↔
      ∃ s', callRun lim p ctxDone file sched = some s' ∧ s'.outcome = some o := by
  unfold callOutcome
  cases callRun lim p ctxDone file sched <;> simp

/-- A run that returns started the pipeline, and returns the finalised map of
its last state, with `results` closed and drained. -/
theorem returned_state {lim : Limits} {p : ParserConfig} {ctxDone : Bool}
    {file : Except String (List ReadResult)} {sched : List Action} {s' : State}
    {L : List DomainCount} (h : callRun lim p ctxDone file sched = some s')
    (hL : s'.outcome = some (.returned L)) :
    (start lim p ctxDone file).outcome = none ∧ s'.resultsClosed = true ∧ s'.resultsBuf = [] ∧
      L = domainUsage s'.domainUserCount := by
  have ho : s'.outcome ≠ none := by simp [hL]
  by_cases hs : (start lim p ctxDone file).outcome = none
  · obtain ⟨_, s₀, a, _, hstep⟩ := exec_last h hs ho
    exact ⟨hs, step_returned hstep L hL⟩
  · obtain ⟨he, _⟩ := exec_ended h hs
    rcases start_cases lim p ctxDone file with ⟨o, ws, hst, hne⟩ | ⟨_, _, _, _, _, hst⟩
    · rw [he, hst] at hL
      simp only [ended, Option.some.injEq] at hL
      exact absurd hL (hne L)
    · rw [hst] at hs
      exact absurd rfl hs

/-- No count in the map ever exceeds the number of data rows sending that domain. -/
theorem counts_le {lim : Limits} {p : ParserConfig} {ctxDone : Bool}
    {file : Except String (List ReadResult)} {sched : List Action} {s' : State}
    (h : callRun lim p ctxDone file sched = some s')
    (hs : (start lim p ctxDone file).outcome = none) (d : String) :
    lookupCount s'.domainUserCount d ≤ (sentDomains (dataRows file)).count d := by
  rw [← start_mass lim p ctxDone file hs d, ← exec_mass h d]
  unfold mass
  omega

/-- The final state of a run that returns without cancellation with at least
one worker: every record has been read and every row has left `rows`. -/
theorem returned_drained {lim : Limits} {p : ParserConfig} {file : Except String (List ReadResult)}
    {sched : List Action} {s' : State} {L : List DomainCount}
    (hW : 1 ≤ p.WorkerCount) (hc : Action.cancel ∉ sched)
    (h : callRun lim p false file sched = some s') (hL : s'.outcome = some (.returned L)) :
    (∀ w ∈ s'.workers, w = .exited) ∧ s'.reader = .done ∧ s'.rowsBuf = [] ∧
      s'.pending = [] := by
  obtain ⟨hs, hclosed, hbuf, _⟩ := returned_state h hL
  have hinv : Inv s' := exec_inv h (start_inv lim p false file)
  have hall := hinv.closed hclosed
  have hlen : s'.workers.length = p.WorkerCount.toNat := by
    rw [exec_workers_length h]
    rcases start_cases lim p false file with ⟨o, ws, hst, _⟩ | ⟨_, _, _, _, _, hst⟩
    · rw [hst] at hs
      simp [ended] at hs
    · rw [hst]
      simp [running]
  have hctx : s'.ctxDone = false := by
    rw [exec_ctxDone h hc]
    rcases start_cases lim p false file with ⟨o, ws, hst, _⟩ | ⟨_, _, _, _, _, hst⟩
    · rw [hst]
      rfl
    · rw [hst]
      rfl
  have hex : WorkerState.exited ∈ s'.workers := by
    cases hw : s'.workers with
    | nil =>
      rw [hw] at hlen
      simp at hlen
      omega
    | cons x rest =>
      have hx : x = .exited := hall x (by simp [hw])
      simp [hx]
  obtain ⟨hdone, hrows⟩ := hinv.drained hctx hex
  exact ⟨hall, hdone, hrows, hinv.eof hdone⟩

/-- In a run that returns without cancellation with at least one worker, the
map holds exactly the number of data rows sending each domain. -/
theorem counts_eq {lim : Limits} {p : ParserConfig} {file : Except String (List ReadResult)}
    {sched : List Action} {s' : State} {L : List DomainCount}
    (hW : 1 ≤ p.WorkerCount) (hc : Action.cancel ∉ sched)
    (h : callRun lim p false file sched = some s') (hL : s'.outcome = some (.returned L))
    (d : String) :
    lookupCount s'.domainUserCount d = (sentDomains (dataRows file)).count d := by
  obtain ⟨hs, _, hbuf, _⟩ := returned_state h hL
  obtain ⟨hall, hdone, hrows, hpend⟩ := returned_drained hW hc h hL
  rw [← start_mass lim p false file hs d, ← exec_mass h d]
  simp [mass, hbuf, hrows, hpend, hdone, sum_map_exited hall, readerOwes, sentDomains_nil,
    recordRows]

/-- The list returned by a run without cancellation with at least one worker
is the finalised aggregate of the domains of the data rows. -/
theorem returned_eq {lim : Limits} {p : ParserConfig} {file : Except String (List ReadResult)}
    {sched : List Action} {L : List DomainCount}
    (hW : 1 ≤ p.WorkerCount) (hc : Action.cancel ∉ sched)
    (h : callOutcome lim p false file sched = some (.returned L)) :
    L = domainUsage (aggregate (sentDomains (dataRows file))) := by
  obtain ⟨s', hrun, hL⟩ := DomainCounts_eq_some.1 h
  obtain ⟨_, _, _, hLeq⟩ := returned_state hrun hL
  rw [hLeq]
  refine domainUsage_congr (exec_inv hrun (start_inv lim p false file)).wf
    (WellFormed.aggregate _) fun k => ?_
  rw [counts_eq hW hc hrun hL k, lookupCount_aggregate]

/-! ## Lemmas on the split -/

theorem splitChars_of_not_mem {cs : List Char} (h : '@' ∉ cs) : splitChars cs = [cs] := by
  induction cs with
  | nil => rfl
  | cons c t ih =>
    have hc : c ≠ '@' := fun hc => h (hc ▸ List.mem_cons_self _ _)
    have ht : '@' ∉ t := fun ht => h (List.mem_cons_of_mem _ ht)
    simp [splitChars, hc, ih ht]

theorem splitChars_of_mem {cs : List Char} (h : '@' ∈ cs) :
    splitChars cs =
      cs.takeWhile (· ≠ '@') :: splitChars ((cs.dropWhile (· ≠ '@')).drop 1) := by
  induction cs with
  | nil => simp at h
  | cons c t ih =>
    by_cases hc : c = '@'
    · simp [splitChars, hc]
    · have ht : '@' ∈ t := by
        rcases List.mem_cons.1 h with h' | h'
        · exact absurd h'.symm hc
        · exact h'
      simp [splitChars, hc, ih ht]

theorem splitChars_head (cs : List Char) :
    (splitChars cs)[0]? = some (cs.takeWhile (· ≠ '@')) := by
  by_cases h : '@' ∈ cs
  · rw [splitChars_of_mem h]
    simp
  · have : cs.takeWhile (· ≠ '@') = cs :=
      List.takeWhile_eq_self_iff.2 fun c hc => by
        simpa using fun hcc : c = '@' => h (hcc ▸ hc)
    rw [splitChars_of_not_mem h, this]
    simp

theorem Split_second_of_mem {email : String} (h : '@' ∈ email.data) :
    (Split email)[1]? = some (String.mk ((afterFirstAt email).data.takeWhile (· ≠ '@'))) := by
  have := splitChars_head ((email.data.dropWhile (· ≠ '@')).drop 1)
  simp only [Split, splitChars_of_mem h, List.map_cons, List.getElem?_cons_succ,
    List.getElem?_map, this, afterFirstAt, Option.map_some']

theorem Split_second_of_not_mem {email : String} (h : '@' ∉ email.data) :
    (Split email)[1]? = none := by
  simp [Split, splitChars_of_not_mem h]

theorem worker_of_mem {row : Row} (hlen : row.length > 3)
    (h : '@' ∈ (row.getD 2 "").data) :
    worker row =
      .send (String.mk ((afterFirstAt (row.getD 2 "")).data.takeWhile (· ≠ '@'))) := by
  simp only [worker, hlen, if_true, Split_second_of_mem h]

theorem worker_of_not_mem {row : Row} (hlen : row.length > 3)
    (h : '@' ∉ (row.getD 2 "").data) : worker row = .indexOutOfRange := by
  simp only [worker, hlen, if_true, Split_second_of_not_mem h]

theorem worker_of_short {row : Row} (hlen : ¬ row.length > 3) : worker row = .skip := by
  simp only [worker, hlen, if_false]

/-! ## Hazards are conserved -/

theorem recordRows_cons_error (err : String) (rest : List ReadResult) :
    recordRows (.error err :: rest) = recordRows rest := by
  simp [recordRows]

theorem isBad_of_skip {row : Row} (h : worker row = .skip) : isBad row = false := by
  simp [isBad, h]

theorem isBad_of_send {row : Row} {d : String} (h : worker row = .send d) :
    isBad row = false := by
  simp [isBad, h]

theorem step_hazards {s s' : State} {a : Action} (h : callStep s a = some s') :
    hazards s' = hazards s := by
  unfold callStep at h
  split at h
  · simp at h
  · cases a <;> simp only at h <;> (repeat' split at h) <;> simp at h <;> subst h <;>
      simp only [hazards]
    all_goals
      try (have hle := le_sum_map workerBad _ _ _ ‹_[_]? = some _›)
      try (rw [sum_map_set_eq workerBad _ _ _ _ ‹_[_]? = some _›])
      try (have hsend := isBad_of_send ‹worker _ = .send _›)
      try (have hskip := isBad_of_skip ‹worker _ = .skip›)
      simp_all [readerBad, workerBad, recordRows_cons_record, recordRows_cons_error, isError,
        List.countP_cons, List.countP_append]
      try omega

theorem exec_hazards {sched : List Action} {s s' : State} (h : callExec s sched = some s') :
    hazards s' = hazards s := by
  induction sched generalizing s with
  | nil =>
    simp only [callExec, Option.some.injEq] at h
    rw [h]
  | cons a rest ih =>
    obtain ⟨s₁, h₁, h₂⟩ := exec_cons h
    rw [ih h₂, step_hazards h₁]

theorem step_pending {s s' : State} {a : Action} (h : callStep s a = some s') :
    ∀ r ∈ s'.pending, r ∈ s.pending := by
  unfold callStep at h
  split at h
  · simp at h
  · cases a <;> simp only at h <;> (repeat' split at h) <;> simp at h <;> subst h <;>
      simp_all

theorem exec_pending {sched : List Action} {s s' : State} (h : callExec s sched = some s') :
    ∀ r ∈ s'.pending, r ∈ s.pending := by
  induction sched generalizing s with
  | nil =>
    simp only [callExec, Option.some.injEq] at h
    rw [h]
    exact fun r hr => hr
  | cons a rest ih =>
    obtain ⟨s₁, h₁, h₂⟩ := exec_cons h
    exact fun r hr => step_pending h₁ r (ih h₂ r hr)

theorem step_fatal {s s' : State} {a : Action} (h : callStep s a = some s') (err : String)
    (hf : s'.outcome = some (.fatal err)) : ReadResult.error err ∈ s.pending := by
  have hnone := step_outcome_none h
  unfold callStep at h
  split at h
  · simp at h
  · cases a <;> simp only at h <;> (repeat' split at h) <;> simp at h <;> subst h <;>
      simp_all

theorem step_panicked {s s' : State} {a : Action} (h : callStep s a = some s')
    (hp : s'.outcome = some .panicked) : s.workers ≠ [] := by
  have hnone := step_outcome_none h
  unfold callStep at h
  split at h
  · simp at h
  · cases a <;> simp only at h <;> (repeat' split at h) <;> simp at h <;> subst h <;>
      simp_all
    all_goals
      intro hnil
      simp_all

theorem step_idle_pool {s s' : State} {a : Action} (h : callStep s a = some s')
    (hw : s.workers = []) (hq : s.resultsBuf = [] ∧ s.domainUserCount = []) :
    s'.resultsBuf = [] ∧ s'.domainUserCount = [] := by
  unfold callStep at h
  split at h
  · simp at h
  · cases a <;> simp only at h <;> (repeat' split at h) <;> simp at h <;> subst h <;>
      simp_all

theorem start_hazards (lim : Limits) (p : ParserConfig) (ctxDone : Bool)
    (file : Except String (List ReadResult)) (h : (start lim p ctxDone file).outcome = none) :
    hazards (start lim p ctxDone file) =
      (dataRecords file).countP isError + (dataRows file).countP isBad := by
  rcases start_cases lim p ctxDone file with ⟨o, ws, ho, _⟩ | ⟨_, _, header, rest, hf, hs⟩
  · rw [ho] at h
    simp [ended] at h
  · rw [hs, hf]
    have hz : ((List.replicate p.WorkerCount.toNat WorkerState.idle).map workerBad).sum = 0 := by
      induction p.WorkerCount.toNat with
      | zero => simp
      | succ k ih => simp [List.replicate_succ, workerBad]
    simp only [hazards, running, hz]
    simp [readerBad, dataRows, dataRecords]

theorem sum_workerBad_exited {l : List WorkerState} (h : ∀ w ∈ l, w = .exited) :
    (l.map workerBad).sum = 0 := by
  induction l with
  | nil => simp
  | cons x rest ih =>
    have hx : x = .exited := h x (List.mem_cons_self _ _)
    have := ih fun w hw => h w (List.mem_cons_of_mem _ hw)
    simp only [List.map_cons, List.sum_cons, this, hx]
    simp [workerBad]

/-- A run that returns without cancellation with at least one worker read a
file without error records after the header and without bad rows. -/
theorem returned_clean {lim : Limits} {p : ParserConfig} {file : Except String (List ReadResult)}
    {sched : List Action} {L : List DomainCount}
    (hW : 1 ≤ p.WorkerCount) (hc : Action.cancel ∉ sched)
    (h : callOutcome lim p false file sched = some (.returned L)) :
    (dataRecords file).countP isError = 0 ∧ (dataRows file).countP isBad = 0 := by
  obtain ⟨s', hrun, hL⟩ := DomainCounts_eq_some.1 h
  obtain ⟨hs, _, _, _⟩ := returned_state hrun hL
  obtain ⟨hall, hdone, hrows, hpend⟩ := returned_drained hW hc hrun hL
  have hz := sum_workerBad_exited hall
  have h0 : hazards s' = 0 := by
    simp only [hazards, hz, hdone, hrows, hpend]
    simp [readerBad, recordRows]
  have := exec_hazards hrun
  rw [h0, start_hazards lim p false file hs] at this
  omega

theorem mem_domainUsage {m : DomainMap} (h : WellFormed m) (d : String) (n : Nat) :
    (⟨d, n⟩ : DomainCount) ∈ domainUsage m ↔ 0 < n ∧ n = lookupCount m d := by
  show _ ∈ (sortStrings (keys m)).map _ ↔ _
  rw [List.mem_map]
  constructor
  · rintro ⟨k, hk, he⟩
    simp only [DomainCount.mk.injEq] at he
    obtain ⟨rfl, rfl⟩ := he
    exact ⟨(mem_keys_iff h.2 k).1 ((sortStrings_perm _).mem_iff.1 hk), rfl⟩
  · rintro ⟨hpos, rfl⟩
    exact ⟨d, (sortStrings_perm _).mem_iff.2 ((mem_keys_iff h.2 d).2 hpos), rfl⟩

theorem lookup_keys_eq_values {m : DomainMap} (h : (keys m).Nodup) :
    (keys m).map (lookupCount m) = m.map Prod.snd := by
  induction m with
  | nil => rfl
  | cons p rest ih =>
    obtain ⟨k, n⟩ := p
    simp only [keys, List.map_cons, List.nodup_cons] at h
    have hrest : (keys rest).map (lookupCount ((k, n) :: rest)) = (keys rest).map (lookupCount rest) :=
      List.map_congr_left fun k' hk' => by
        have hne : k ≠ k' := fun he => h.1 (he ▸ hk')
        simp [lookupCount, hne]
    simp only [keys, List.map_cons] at hrest ih ⊢
    rw [hrest, ih h.2]
    simp [lookupCount]

theorem sum_domainUsage {m : DomainMap} (h : WellFormed m) :
    ((domainUsage m).map (·.NumberOfUsers)).sum = (m.map Prod.snd).sum := by
  have hmap : (domainUsage m).map (·.NumberOfUsers)
      = (sortStrings (keys m)).map (lookupCount m) := by
    simp [domainUsage, keys, Function.comp_def]
  rw [hmap, ((sortStrings_perm (keys m)).map _).sum_eq, lookup_keys_eq_values h.1]

theorem sum_values_increment (m : DomainMap) (d : String) :
    ((increment m d).map Prod.snd).sum = (m.map Prod.snd).sum + 1 := by
  induction m with
  | nil => simp [increment]
  | cons p rest ih =>
    obtain ⟨k, n⟩ := p
    by_cases hk : k = d
    · simp [increment, hk]
      omega
    · simp [increment, hk, ih]
      omega

theorem sum_values_foldl (m : DomainMap) (l : List String) :
    ((l.foldl increment m).map Prod.snd).sum = (m.map Prod.snd).sum + l.length := by
  induction l generalizing m with
  | nil => simp
  | cons d rest ih =>
    rw [List.foldl_cons, ih, sum_values_increment, List.length_cons]
    omega

theorem sum_domainUsage_aggregate (l : List String) :
    ((domainUsage (aggregate l)).map (·.NumberOfUsers)).sum = l.length := by
  rw [sum_domainUsage (WellFormed.aggregate l), aggregate, sum_values_foldl]
  simp

theorem count_sentDomains (rows : List Row) (d : String) :
    (sentDomains rows).count d = (rows.filter fun row => rowDomain row = some d).length := by
  induction rows with
  | nil => simp [sentDomains_nil]
  | cons row rest ih =>
    rw [sentDomains_cons, List.count_append, ih, List.filter_cons]
    cases hr : rowDomain row with
    | none => simp
    | some d' =>
      by_cases hd : d' = d
      · simp [hd]
        omega
      · simp [hd, List.count_cons]

theorem rowDomain_isSome_iff {row : Row} (h : isBad row = false) :
    (rowDomain row).isSome ↔ row.length > 3 := by
  by_cases hlen : row.length > 3
  · by_cases hat : '@' ∈ (row.getD 2 "").data
    · simp [rowDomain, worker_of_mem hlen hat, hlen]
    · simp [isBad, worker_of_not_mem hlen hat] at h
  · simp [rowDomain, worker_of_short hlen, hlen]

theorem length_sentDomains {rows : List Row} (h : ∀ row ∈ rows, isBad row = false) :
    (sentDomains rows).length = (rows.filter fun row => row.length > 3).length := by
  induction rows with
  | nil => simp [sentDomains_nil]
  | cons row rest ih =>
    have hrow := rowDomain_isSome_iff (h row (List.mem_cons_self _ _))
    rw [sentDomains_cons, List.length_append, ih fun r hr => h r (List.mem_cons_of_mem _ hr),
      List.filter_cons]
    by_cases hlen : row.length > 3
    · obtain ⟨d, hd⟩ := Option.isSome_iff_exists.1 (hrow.2 hlen)
      simp [hd, hlen]
      omega
    · have hn : rowDomain row = none := by
        cases hr : rowDomain row with
        | none => rfl
        | some d => exact absurd (hrow.1 (by simp [hr])) hlen
      simp [hn, hlen]

theorem recordRows_map_record (rows : List Row) :
    recordRows (rows.map .record) = rows := by
  induction rows with
  | nil => rfl
  | cons row rest ih => rw [List.map_cons, recordRows_cons_record, ih]

/-! ## The sequential schedule completes -/

theorem exec_append (s : State) (l₁ l₂ : List Action) :
    callExec s (l₁ ++ l₂) = (callExec s l₁).bind fun s' => callExec s' l₂ := by
  induction l₁ generalizing s with
  | nil => simp [callExec]
  | cons a rest ih =>
    simp only [List.cons_append, callExec]
    cases callStep s a with
    | none => simp
    | some s₁ => simp [ih]

theorem getElem?_append_length (pre : List WorkerState) (x : WorkerState)
    (t : List WorkerState) : (pre ++ x :: t)[pre.length]? = some x := by
  induction pre with
  | nil => simp
  | cons y ys ih => simpa using ih

theorem set_append_length (pre : List WorkerState) (x y : WorkerState)
    (t : List WorkerState) : (pre ++ x :: t).set pre.length y = pre ++ y :: t := by
  induction pre with
  | nil => simp
  | cons z zs ih => simp [ih]

theorem exec_rowSchedule (row : Row) (hbad : isBad row = false) (rest : List ReadResult)
    (ws : List WorkerState) (counts : DomainMap) (ctxDone : Bool) (cap : Nat) :
    callExec (running (.record row :: rest) .reading (.idle :: ws) counts false ctxDone cap)
        (rowSchedule row)
      = some (running rest .reading (.idle :: ws)
          ((sentDomains [row]).foldl increment counts) false ctxDone cap) := by
  cases hwr : worker row with
  | skip => simp [rowSchedule, hwr, callExec, callStep, running, sentDomains, rowDomain]
  | send d => simp [rowSchedule, hwr, callExec, callStep, running, sentDomains, rowDomain]
  | indexOutOfRange => simp [isBad, hwr] at hbad

theorem exec_feedSchedule (rows : List Row) (hbad : ∀ row ∈ rows, isBad row = false)
    (rest : List ReadResult) (ws : List WorkerState) (counts : DomainMap) (ctxDone : Bool)
    (cap : Nat) :
    callExec (running (rows.map .record ++ rest) .reading (.idle :: ws) counts false ctxDone cap)
        (feedSchedule rows)
      = some (running rest .reading (.idle :: ws)
          ((sentDomains rows).foldl increment counts) false ctxDone cap) := by
  induction rows generalizing counts with
  | nil => simp [feedSchedule, callExec, sentDomains_nil]
  | cons row more ih =>
    rw [feedSchedule, exec_append, List.map_cons, List.cons_append,
      exec_rowSchedule row (hbad row (List.mem_cons_self _ _)), Option.some_bind,
      ih fun r hr => hbad r (List.mem_cons_of_mem _ hr)]
    simp [sentDomains_cons, List.foldl_append, sentDomains_nil]

theorem exec_recvClosed (n : Nat) (pre : List WorkerState) (counts : DomainMap)
    (ctxDone : Bool) (cap : Nat) :
    callExec (running [] .done (pre ++ List.replicate n .idle) counts false ctxDone cap)
        ((List.range' pre.length n).map Action.recvClosed)
      = some (running [] .done (pre ++ List.replicate n .exited) counts false ctxDone cap) := by
  induction n generalizing pre with
  | zero => simp [callExec]
  | succ k ih =>
    have hstep : callStep (running [] .done (pre ++ List.replicate (k + 1) .idle) counts false
          ctxDone cap) (.recvClosed pre.length)
        = some (running [] .done ((pre ++ [.exited]) ++ List.replicate k .idle) counts false
          ctxDone cap) := by
      have hget := getElem?_append_length pre .idle (List.replicate k .idle)
      simp only [callStep, running, List.replicate_succ, Option.isSome_none, Bool.false_eq_true,
        if_false, hget, set_append_length, List.append_assoc, List.singleton_append]
    have := ih (pre ++ [.exited])
    simp only [List.length_append, List.length_singleton] at this
    rw [List.range'_succ, List.map_cons, callExec, hstep, Option.some_bind, this]
    simp [List.replicate_succ]

/-- The sequential schedule completes on every file of rows none of which is
bad, whatever the buffer capacity and the number of workers (at least one):
the call returns the finalised aggregate of the domains of the rows. -/
theorem sequentialSchedule_returns (lim : Limits) (p : ParserConfig) (ctxDone : Bool)
    (header : Row) (rows : List Row) (hW : 1 ≤ p.WorkerCount) (hB : 0 ≤ p.BufferSize)
    (hB' : p.BufferSize ≤ lim.maxCap) (hW' : p.WorkerCount ≤ lim.maxWorkers)
    (hbad : ∀ row ∈ rows, isBad row = false) :
    callOutcome lim p ctxDone (.ok (.record header :: rows.map .record))
        (sequentialSchedule p rows)
      = some (.returned (domainUsage (aggregate (sentDomains rows)))) := by
  obtain ⟨n, hn⟩ : ∃ n, p.WorkerCount.toNat = n + 1 := ⟨p.WorkerCount.toNat - 1, by omega⟩
  have hstart : start lim p ctxDone (.ok (.record header :: rows.map .record))
      = running (rows.map .record ++ []) .reading (.idle :: List.replicate n .idle) []
          false ctxDone p.BufferSize.toNat := by
    rw [start_running lim p ctxDone header _ hB hB' hW', hn]
    simp [List.replicate_succ]
  have hread : callStep (running [] .reading (.idle :: List.replicate n .idle)
        ((sentDomains rows).foldl increment []) false ctxDone p.BufferSize.toNat) .read
      = some (running [] .done ([] ++ List.replicate (n + 1) .idle)
        ((sentDomains rows).foldl increment []) false ctxDone p.BufferSize.toNat) := by
    simp [callStep, running, List.replicate_succ]
  have hexit := exec_recvClosed (n + 1) [] ((sentDomains rows).foldl increment []) ctxDone
    p.BufferSize.toNat
  simp only [List.length_nil] at hexit
  simp only [callOutcome, callRun, hstart, sequentialSchedule, hn]
  rw [exec_append, exec_feedSchedule rows hbad, Option.some_bind, callExec, hread,
    Option.some_bind, exec_append, hexit]
  simp [callExec, callStep, running, aggregate]

theorem cancel_not_mem_sequentialSchedule (p : ParserConfig) (rows : List Row) :
    Action.cancel ∉ sequentialSchedule p rows := by
  have hfeed : Action.cancel ∉ feedSchedule rows := by
    induction rows with
    | nil => simp [feedSchedule]
    | cons row rest ih =>
      simp only [feedSchedule, rowSchedule, List.mem_append, not_or]
      refine ⟨?_, ih⟩
      split <;> simp
  simp [sequentialSchedule, hfeed]

/-! ## Every run ends -/

theorem step_measure {s s' : State} {a : Action} (h : callStep s a = some s') :
    measure s' < measure s := by
  unfold callStep at h
  split at h
  · simp at h
  · cases a <;> simp only at h <;> (repeat' split at h) <;> simp at h <;> subst h <;>
      simp only [measure]
    all_goals
      try (have hle := le_sum_map workerWeight _ _ _ ‹_[_]? = some _›)
      try (rw [sum_map_set_eq workerWeight _ _ _ _ ‹_[_]? = some _›])
      simp_all [readerWeight, workerWeight]
      try omega

/-- A run is no longer than the measure of the state it starts from. -/
theorem exec_length {sched : List Action} {s s' : State} (h : callExec s sched = some s') :
    sched.length + measure s' ≤ measure s := by
  induction sched generalizing s with
  | nil =>
    simp only [callExec, Option.some.injEq] at h
    simp [h]
  | cons a rest ih =>
    obtain ⟨s₁, h₁, h₂⟩ := exec_cons h
    have := ih h₂
    have := step_measure h₁
    simp only [List.length_cons]
    omega

/-- No deadlock: a call that has not ended can take a step other than a
cancellation. -/
theorem progress (s : State) (ho : s.outcome = none) :
    ∃ a, a ≠ Action.cancel ∧ (callStep s a).isSome := by
  cases hres : s.resultsBuf with
  | cons result rest => exact ⟨.mainRecv, by simp, by simp [callStep, ho, hres]⟩
  | nil =>
    by_cases hclosed : s.resultsClosed = true
    · exact ⟨.mainReturn, by simp, by simp [callStep, ho, hres, hclosed]⟩
    · by_cases hall : ∀ w ∈ s.workers, w = .exited
      · exact ⟨.closeResults, by simp, by simpa [callStep, ho, hclosed] using hall⟩
      · simp only [not_forall] at hall
        obtain ⟨st, hmem, hne⟩ := hall
        obtain ⟨w, hw⟩ := List.mem_iff_getElem?.1 hmem
        cases st with
        | exited => exact absurd rfl hne
        | got row =>
          cases hwr : worker row with
          | skip => exact ⟨.process w, by simp, by simp [callStep, ho, hw, hwr]⟩
          | send d => exact ⟨.process w, by simp, by simp [callStep, ho, hw, hwr]⟩
          | indexOutOfRange => exact ⟨.process w, by simp, by simp [callStep, ho, hw, hwr]⟩
        | sending d => exact ⟨.handResult w, by simp, by simp [callStep, ho, hw, hres]⟩
        | idle =>
          cases hrows : s.rowsBuf with
          | cons row rest => exact ⟨.recvRow w, by simp, by simp [callStep, ho, hw, hrows]⟩
          | nil =>
            cases hr : s.reader with
            | sending row => exact ⟨.handRow w, by simp, by simp [callStep, ho, hw, hrows, hr]⟩
            | done => exact ⟨.recvClosed w, by simp, by simp [callStep, ho, hw, hrows, hr]⟩
            | reading =>
              cases hp : s.pending with
              | nil => exact ⟨.read, by simp, by simp [callStep, ho, hr, hp]⟩
              | cons r rest =>
                cases r with
                | record row => exact ⟨.read, by simp, by simp [callStep, ho, hr, hp]⟩
                | error err => exact ⟨.read, by simp, by simp [callStep, ho, hr, hp]⟩

/-- From every state in which the call has not ended, some schedule without
cancellation ends it. -/
theorem exists_completion (s : State) (ho : s.outcome = none) :
    ∃ more s', Action.cancel ∉ more ∧ callExec s more = some s' ∧ s'.outcome ≠ none := by
  generalize hn : measure s = n
  induction n using Nat.strong_induction_on generalizing s with
  | _ n ih =>
    obtain ⟨a, ha, hsome⟩ := progress s ho
    obtain ⟨s₁, hstep⟩ := Option.isSome_iff_exists.1 hsome
    by_cases h₁ : s₁.outcome = none
    · obtain ⟨more, s', hc, hex, hout⟩ :=
        ih (measure s₁) (hn ▸ step_measure hstep) s₁ h₁ rfl
      refine ⟨a :: more, s', ?_, by simp [callExec, hstep, hex], hout⟩
      simp only [List.mem_cons, not_or]
      exact ⟨fun h => ha h.symm, hc⟩
    · exact ⟨[a], s₁, by simpa using fun h => ha h.symm, by simp [callExec, hstep], h₁⟩

/-! ## Further facts on runs -/

theorem exec_idle_pool {sched : List Action} {s s' : State} (h : callExec s sched = some s')
    (hw : s.workers = []) (hq : s.resultsBuf = [] ∧ s.domainUserCount = []) :
    s'.resultsBuf = [] ∧ s'.domainUserCount = [] := by
  induction sched generalizing s with
  | nil =>
    simp only [callExec, Option.some.injEq] at h
    exact h ▸ hq
  | cons a rest ih =>
    obtain ⟨s₁, h₁, h₂⟩ := exec_cons h
    have hw₁ : s₁.workers = [] :=
      List.eq_nil_of_length_eq_zero (by rw [step_workers_length h₁, hw]; rfl)
    exact ih h₂ hw₁ (step_idle_pool h₁ hw hq)

/-- The records the reader has consumed are rows: what is pending is what
follows them in the file. -/
theorem step_consumed {s s' : State} {a : Action} (h : callStep s a = some s')
    (records : List ReadResult) (hi : ∃ rows : List Row, records = rows.map .record ++ s.pending) :
    ∃ rows : List Row, records = rows.map .record ++ s'.pending := by
  obtain ⟨rows, hrows⟩ := hi
  unfold callStep at h
  split at h
  · simp at h
  · cases a <;> simp only at h <;> (repeat' split at h) <;> simp at h <;> subst h <;>
      first
      | exact ⟨rows, hrows⟩
      | (rename_i row rest hp
         exact ⟨rows ++ [row], by simp [hrows, hp]⟩)

theorem exec_consumed {sched : List Action} {s s' : State} (h : callExec s sched = some s')
    (records : List ReadResult) (hi : ∃ rows : List Row, records = rows.map .record ++ s.pending) :
    ∃ rows : List Row, records = rows.map .record ++ s'.pending := by
  induction sched generalizing s with
  | nil =>
    simp only [callExec, Option.some.injEq] at h
    exact h ▸ hi
  | cons a rest ih =>
    obtain ⟨s₁, h₁, h₂⟩ := exec_cons h
    exact ih h₂ (step_consumed h₁ records hi)

theorem step_fatal_head {s s' : State} {a : Action} (h : callStep s a = some s') (err : String)
    (hf : s'.outcome = some (.fatal err)) : ∃ tail, s.pending = .error err :: tail := by
  have hnone := step_outcome_none h
  unfold callStep at h
  split at h
  · simp at h
  · cases a <;> simp only at h <;> (repeat' split at h) <;> simp at h <;> subst h <;>
      simp_all

/-- The first error record of a list of records is determined by the list. -/
theorem first_error_unique (rows₁ rows₂ : List Row) (e₁ e₂ : String)
    (t₁ t₂ : List ReadResult)
    (h : rows₁.map ReadResult.record ++ .error e₁ :: t₁
      = rows₂.map ReadResult.record ++ .error e₂ :: t₂) : e₁ = e₂ := by
  induction rows₁ generalizing rows₂ with
  | nil =>
    cases rows₂ with
    | nil =>
      simp only [List.map_nil, List.nil_append, List.cons.injEq, ReadResult.error.injEq] at h
      exact h.1
    | cons r rs => simp at h
  | cons r rs ih =>
    cases rows₂ with
    | nil => simp at h
    | cons r' rs' =>
      simp only [List.map_cons, List.cons_append, List.cons.injEq] at h
      exact ih rs' h.2

theorem isBad_of_at {row : Row} (h : row.length > 3 → '@' ∈ (row.getD 2 "").data) :
    isBad row = false := by
  by_cases hlen : row.length > 3
  · simp [isBad, worker_of_mem hlen (h hlen)]
  · simp [isBad, worker_of_short hlen]

theorem step_panicked_hazard {s s' : State} {a : Action} (h : callStep s a = some s')
    (hp : s'.outcome = some .panicked) : 0 < hazards s := by
  have hnone := step_outcome_none h
  unfold callStep at h
  split at h
  · simp at h
  · cases a <;> simp only at h <;> (repeat' split at h) <;> simp at h <;> subst h <;>
      simp_all
    all_goals
      have hle := le_sum_map workerBad _ _ _ ‹_[_]? = some _›
      have hb : isBad ‹Row› = true := by simp [isBad, *]
      simp only [workerBad, hb, if_true] at hle
      simp only [hazards]
      omega

/-- Whatever the schedule, a prefix of a run can be completed without
cancellation: the call ends. -/
theorem run_completes {lim : Limits} {p : ParserConfig} {ctxDone : Bool}
    {file : Except String (List ReadResult)} {sched : List Action} {s : State}
    (h : callRun lim p ctxDone file sched = some s) :
    ∃ more o, Action.cancel ∉ more ∧
      callOutcome lim p ctxDone file (sched ++ more) = some o := by
  by_cases ho : s.outcome = none
  · obtain ⟨more, s', hc, hex, hout⟩ := exists_completion s ho
    obtain ⟨o, ho'⟩ := Option.ne_none_iff_exists'.1 hout
    refine ⟨more, o, hc, ?_⟩
    unfold callRun at h
    simp [callOutcome, callRun, exec_append, h, hex, ho']
  · obtain ⟨o, ho'⟩ := Option.ne_none_iff_exists'.1 ho
    exact ⟨[], o, by simp, by simp [callOutcome, h, ho']⟩

/-- The length of a run of the pipeline is bounded by the size of the file and
the number of workers. -/
theorem run_length {lim : Limits} {p : ParserConfig} {ctxDone : Bool} {header : Row}
    {rest : List ReadResult} {sched : List Action} {s : State}
    (h : callRun lim p ctxDone (.ok (.record header :: rest)) sched = some s) :
    sched.length ≤ 7 * rest.length + p.WorkerCount.toNat + 5 := by
  have hlen := exec_length h
  have hm : measure (start lim p ctxDone (.ok (.record header :: rest)))
      ≤ 7 * rest.length + p.WorkerCount.toNat + 5 := by
    have hsum : ∀ n, ((List.replicate n WorkerState.idle).map workerWeight).sum = n := by
      intro n
      induction n with
      | zero => simp
      | succ k ih =>
        simp only [List.replicate_succ, List.map_cons, List.sum_cons, ih, workerWeight]
        omega
    by_cases hB : p.BufferSize < 0 ∨ (lim.maxCap : Int) < p.BufferSize
        ∨ (lim.maxWorkers : Int) < p.WorkerCount
    · simp only [start, hB, if_true, ended, measure, readerWeight]
      cases ctxDone <;> simp
    · simp only [start, hB, if_false, measure, hsum, readerWeight]
      cases ctxDone <;> simp <;> omega
  omega

/-- On a file of rows none of which is bad, with a non-negative buffer size and
at least one worker, a call that is not cancelled ends in one way only: it
returns the finalised aggregate of the domains of the rows. -/
theorem clean_outcome {lim : Limits} {p : ParserConfig} {header : Row} {rows : List Row}
    {sched : List Action} {o : Outcome} (hW : 1 ≤ p.WorkerCount) (hB : 0 ≤ p.BufferSize)
    (hB' : p.BufferSize ≤ lim.maxCap) (hW' : p.WorkerCount ≤ lim.maxWorkers)
    (hbad : ∀ row ∈ rows, isBad row = false) (hc : Action.cancel ∉ sched)
    (h : callOutcome lim p false (.ok (.record header :: rows.map .record)) sched = some o) :
    o = .returned (domainUsage (aggregate (sentDomains rows))) := by
  obtain ⟨s', hrun, hout⟩ := DomainCounts_eq_some.1 h
  have hst := start_running lim p false header (rows.map .record) hB hB' hW'
  have hrun' := hrun
  unfold callRun at hrun'
  rw [hst] at hrun'
  obtain ⟨pre, s₀, a, hpre, hstep⟩ := exec_last hrun' (by simp [running]) (by simp [hout])
  cases o with
  | failed e => exact absurd hout (step_not_failed hstep e)
  | fatal e =>
    have hmem := exec_pending hpre _ (step_fatal hstep e hout)
    simp [running] at hmem
  | panicked =>
    have hpos := step_panicked_hazard hstep hout
    rw [exec_hazards hpre, ← hst, start_hazards _ _ _ _ (by simp [hst, running])] at hpos
    have h₁ : (dataRecords (.ok (.record header :: rows.map .record))).countP isError = 0 := by
      simp [dataRecords, List.countP_eq_zero, isError]
    have h₂ : (dataRows (.ok (.record header :: rows.map .record))).countP isBad = 0 := by
      simp only [dataRows, dataRecords, recordRows_map_record, List.countP_eq_zero]
      intro row hr
      simp [hbad row hr]
    omega
  | returned L =>
    have := returned_eq hW hc h
    simp only [dataRows, dataRecords, recordRows_map_record] at this
    rw [this]

theorem start_failed {lim : Limits} {p : ParserConfig} {ctxDone : Bool}
    {file : Except String (List ReadResult)} {e : String}
    (h : (start lim p ctxDone file).outcome = some (.failed e)) :
    (start lim p false file).outcome = some (.failed e) := by
  unfold start at h ⊢
  split
  · simpa [ended] using h
  · split
    · simp [*, ended] at h
    · split
      · simpa [*, ended] using h
      · simpa [*, ended] using h
      · simp [*] at h

/-! ## The call and what it leaves behind -/

theorem step_of_running {s : State} (h : s.outcome = none) (a : Action) :
    step s a = callStep s a := by
  simp [step, h]

theorem callStep_step {s s' : State} {a : Action} (h : callStep s a = some s') :
    step s a = some s' := by
  rw [step_of_running (step_outcome_none h)]
  exact h

theorem callExec_exec {sched : List Action} {s s' : State}
    (h : callExec s sched = some s') : exec s sched = some s' := by
  induction sched generalizing s with
  | nil => simpa [exec, callExec] using h
  | cons a rest ih =>
    obtain ⟨s₁, h₁, h₂⟩ := exec_cons h
    simp [exec, callStep_step h₁, ih h₂]

theorem afterStep_outcome {s s' : State} {a : Action} (h : afterStep s a = some s') :
    s'.outcome = s.outcome := by
  unfold afterStep at h
  split at h
  · simp at h
  · cases a <;> simp only at h <;> (repeat' split at h) <;> simp at h <;> subst h <;> rfl

theorem step_outcome_some {s s' : State} {a : Action} {o : Outcome}
    (ho : s.outcome = some o) (h : step s a = some s') : s'.outcome = some o := by
  unfold step at h
  rw [ho] at h
  cases o <;> simp only at h
  · rw [afterStep_outcome h, ho]
  · rw [afterStep_outcome h, ho]
  · simp at h
  · simp at h

theorem anyExec_cons {s s' : State} {a : Action} {rest : List Action}
    (h : exec s (a :: rest) = some s') : ∃ s₁, step s a = some s₁ ∧ exec s₁ rest = some s' := by
  simp only [exec] at h
  cases hs : step s a with
  | none => simp [hs] at h
  | some s₁ => exact ⟨s₁, rfl, by simpa [hs] using h⟩

theorem exec_outcome_some {sched : List Action} {s s' : State} {o : Outcome}
    (ho : s.outcome = some o) (h : exec s sched = some s') : s'.outcome = some o := by
  induction sched generalizing s with
  | nil =>
    simp only [exec, Option.some.injEq] at h
    exact h ▸ ho
  | cons a rest ih =>
    obtain ⟨s₁, h₁, h₂⟩ := anyExec_cons h
    exact ih (step_outcome_some ho h₁) h₂

/-- Every run is a run of the call followed by steps of what the call left
behind: the outcome is that of the call. -/
theorem exec_split {sched : List Action} {s s' : State} (h : exec s sched = some s') :
    ∃ pre post s₁, sched = pre ++ post ∧ callExec s pre = some s₁ ∧
      exec s₁ post = some s' ∧ s'.outcome = s₁.outcome ∧
      (s₁.outcome = none → post = []) := by
  induction sched generalizing s with
  | nil =>
    simp only [exec, Option.some.injEq] at h
    exact ⟨[], [], s, rfl, rfl, by simp [exec, h], by rw [h], fun _ => rfl⟩
  | cons a rest ih =>
    by_cases ho : s.outcome = none
    · obtain ⟨s₂, h₁, h₂⟩ := anyExec_cons h
      rw [step_of_running ho] at h₁
      obtain ⟨pre, post, s₁, hsplit, hcall, hafter, hout, hnone⟩ := ih h₂
      exact ⟨a :: pre, post, s₁, by simp [hsplit], by simp [callExec, h₁, hcall], hafter,
        hout, hnone⟩
    · obtain ⟨o, ho'⟩ := Option.ne_none_iff_exists'.1 ho
      exact ⟨[], a :: rest, s, rfl, rfl, h, by rw [exec_outcome_some ho' h, ho'],
        fun hn => absurd hn ho⟩

theorem DomainCounts_iff {lim : Limits} {p : ParserConfig} {ctxDone : Bool}
    {file : Except String (List ReadResult)} {sched : List Action} {o : Outcome} :
    DomainCounts lim p ctxDone file sched = some o ↔
      ∃ s', run lim p ctxDone file sched = some s' ∧ s'.outcome = some o := by
  unfold DomainCounts
  cases run lim p ctxDone file sched <;> simp

/-- The outcome of a run is the outcome of the call, reached on a prefix of
the schedule. -/
theorem DomainCounts_call {lim : Limits} {p : ParserConfig} {ctxDone : Bool}
    {file : Except String (List ReadResult)} {sched : List Action} {o : Outcome}
    (h : DomainCounts lim p ctxDone file sched = some o) :
    ∃ pre post, sched = pre ++ post ∧ callOutcome lim p ctxDone file pre = some o := by
  obtain ⟨s', hrun, hout⟩ := DomainCounts_iff.1 h
  obtain ⟨pre, post, s₁, hsplit, hcall, _, ho, _⟩ := exec_split hrun
  exact ⟨pre, post, hsplit, DomainCounts_eq_some.2 ⟨s₁, hcall, by rw [← ho, hout]⟩⟩

theorem call_DomainCounts {lim : Limits} {p : ParserConfig} {ctxDone : Bool}
    {file : Except String (List ReadResult)} {sched : List Action} {o : Outcome}
    (h : callOutcome lim p ctxDone file sched = some o) :
    DomainCounts lim p ctxDone file sched = some o := by
  obtain ⟨s', hrun, hout⟩ := DomainCounts_eq_some.1 h
  exact DomainCounts_iff.2 ⟨s', callExec_exec hrun, hout⟩

theorem not_mem_of_append_left {sched pre post : List Action} (h : sched = pre ++ post)
    (hc : Action.cancel ∉ sched) : Action.cancel ∉ pre := by
  subst h
  exact fun hm => hc (List.mem_append_left _ hm)

theorem anyExec_append (s : State) (l₁ l₂ : List Action) :
    exec s (l₁ ++ l₂) = (exec s l₁).bind fun s' => exec s' l₂ := by
  induction l₁ generalizing s with
  | nil => simp [exec]
  | cons a rest ih =>
    simp only [List.cons_append, exec]
    cases step s a with
    | none => simp
    | some s₁ => simp [ih]

/-! ## Every run ends, whatever is left behind -/

theorem afterStep_measure {s s' : State} {a : Action} (h : afterStep s a = some s') :
    measure s' < measure s := by
  unfold afterStep at h
  split at h
  · simp at h
  · cases a <;> simp only at h <;> (repeat' split at h) <;> simp at h <;> subst h <;>
      simp only [measure]
    all_goals
      try (have hle := le_sum_map workerWeight _ _ _ ‹_[_]? = some _›)
      try (rw [sum_map_set_eq workerWeight _ _ _ _ ‹_[_]? = some _›])
      simp_all [readerWeight, workerWeight]
      try omega

theorem anyStep_measure {s s' : State} {a : Action} (h : step s a = some s') :
    measure s' < measure s := by
  unfold step at h
  split at h
  · exact step_measure h
  · exact afterStep_measure h
  · exact afterStep_measure h
  · simp at h

theorem anyExec_length {sched : List Action} {s s' : State} (h : exec s sched = some s') :
    sched.length + measure s' ≤ measure s := by
  induction sched generalizing s with
  | nil =>
    simp only [exec, Option.some.injEq] at h
    simp [h]
  | cons a rest ih =>
    obtain ⟨s₁, h₁, h₂⟩ := anyExec_cons h
    have := ih h₂
    have := anyStep_measure h₁
    simp only [List.length_cons]
    omega

theorem measure_start (lim : Limits) (p : ParserConfig) (ctxDone : Bool) (header : Row)
    (rest : List ReadResult) :
    measure (start lim p ctxDone (.ok (.record header :: rest)))
      ≤ 7 * rest.length + p.WorkerCount.toNat + 5 := by
  have hsum : ∀ n, ((List.replicate n WorkerState.idle).map workerWeight).sum = n := by
    intro n
    induction n with
    | zero => simp
    | succ k ih =>
      simp only [List.replicate_succ, List.map_cons, List.sum_cons, ih, workerWeight]
      omega
  by_cases hB : p.BufferSize < 0 ∨ (lim.maxCap : Int) < p.BufferSize
      ∨ (lim.maxWorkers : Int) < p.WorkerCount
  · simp only [start, hB, if_true, ended, measure, readerWeight]
    cases ctxDone <;> simp
  · simp only [start, hB, if_false, measure, hsum, readerWeight]
    cases ctxDone <;> simp <;> omega

/-- The length of a run, the steps after the return included, is bounded by
the size of the file and the number of workers. -/
theorem anyRun_length {lim : Limits} {p : ParserConfig} {ctxDone : Bool} {header : Row}
    {rest : List ReadResult} {sched : List Action} {s : State}
    (h : run lim p ctxDone (.ok (.record header :: rest)) sched = some s) :
    sched.length ≤ 7 * rest.length + p.WorkerCount.toNat + 5 := by
  have hlen := anyExec_length h
  have hm := measure_start lim p ctxDone header rest
  omega

/-- A run in which the call has not ended can be completed without
cancellation: the call ends. -/
theorem anyRun_completes {lim : Limits} {p : ParserConfig} {ctxDone : Bool}
    {file : Except String (List ReadResult)} {sched : List Action} {s : State}
    (h : run lim p ctxDone file sched = some s) :
    ∃ more o, Action.cancel ∉ more ∧
      DomainCounts lim p ctxDone file (sched ++ more) = some o := by
  by_cases ho : s.outcome = none
  · obtain ⟨more, s', hc, hex, hout⟩ := exists_completion s ho
    obtain ⟨o, ho'⟩ := Option.ne_none_iff_exists'.1 hout
    refine ⟨more, o, hc, ?_⟩
    unfold run at h
    simp [DomainCounts, run, anyExec_append, h, callExec_exec hex, ho']
  · obtain ⟨o, ho'⟩ := Option.ne_none_iff_exists'.1 ho
    exact ⟨[], o, by simp, by simp [DomainCounts, h, ho']⟩

/-! ## The rows the workers receive -/

theorem callStep_flow {s s' : State} {a : Action} (h : callStep s a = some s') :
    delivered s a ++ flow s' = flow s := by
  unfold callStep at h
  split at h
  · simp at h
  · cases a <;> simp only at h <;> (repeat' split at h) <;> simp at h <;> subst h <;>
      simp_all [delivered, flow, readerRow, recordRows_cons_record, recordRows_cons_error]

theorem afterStep_flow {s s' : State} {a : Action} (h : afterStep s a = some s') :
    delivered s a ++ flow s' = flow s := by
  unfold afterStep at h
  split at h
  · simp at h
  · cases a <;> simp only at h <;> (repeat' split at h) <;> simp at h <;> subst h <;>
      simp_all [delivered, flow, readerRow, recordRows_cons_record, recordRows_cons_error]

theorem step_flow {s s' : State} {a : Action} (h : step s a = some s') :
    delivered s a ++ flow s' = flow s := by
  unfold step at h
  split at h
  · exact callStep_flow h
  · exact afterStep_flow h
  · exact afterStep_flow h
  · simp at h

/-- What the workers have received and what is still on its way to them make
up, in order, the rows that were on their way at the start. -/
theorem exec_flow {sched : List Action} {s s' : State} (h : exec s sched = some s') :
    deliveries s sched ++ flow s' = flow s := by
  induction sched generalizing s with
  | nil =>
    simp only [exec, Option.some.injEq] at h
    simp [deliveries, h]
  | cons a rest ih =>
    obtain ⟨s₁, h₁, h₂⟩ := anyExec_cons h
    simp only [deliveries, h₁, List.append_assoc, ih h₂, step_flow h₁]

theorem flow_start (lim : Limits) (p : ParserConfig) (ctxDone : Bool) (header : Row)
    (rest : List ReadResult) :
    flow (start lim p ctxDone (.ok (.record header :: rest))) = recordRows rest ∨
    flow (start lim p ctxDone (.ok (.record header :: rest))) = [] := by
  by_cases hB : p.BufferSize < 0 ∨ (lim.maxCap : Int) < p.BufferSize
      ∨ (lim.maxWorkers : Int) < p.WorkerCount
  · exact Or.inr (by simp [start, hB, ended, flow, readerRow, recordRows])
  · exact Or.inl (by simp [start, hB, flow, readerRow])

/-! ## The end of the process after the return -/

theorem callStep_exit {s s' : State} {a : Action} (h : callStep s a = some s') :
    s'.exit = s.exit := by
  unfold callStep at h
  split at h
  · simp at h
  · cases a <;> simp only at h <;> (repeat' split at h) <;> simp at h <;> subst h <;> rfl

theorem callExec_exit {sched : List Action} {s s' : State}
    (h : callExec s sched = some s') : s'.exit = s.exit := by
  induction sched generalizing s with
  | nil =>
    simp only [callExec, Option.some.injEq] at h
    rw [h]
  | cons a rest ih =>
    obtain ⟨s₁, h₁, h₂⟩ := exec_cons h
    rw [ih h₂, callStep_exit h₁]

theorem afterStep_exit {s s' : State} {a : Action} (h : afterStep s a = some s')
    (err : String) (he : s'.exit = some err) :
    err = fileAlreadyClosed ∨ ReadResult.error err ∈ s.pending := by
  unfold afterStep at h
  split at h
  · simp at h
  · cases a <;> simp only at h <;> (repeat' split at h) <;> simp at h <;> subst h <;>
      simp_all

theorem afterStep_pending {s s' : State} {a : Action} (h : afterStep s a = some s') :
    ∀ r ∈ s'.pending, r ∈ s.pending := by
  unfold afterStep at h
  split at h
  · simp at h
  · cases a <;> simp only at h <;> (repeat' split at h) <;> simp at h <;> subst h <;>
      simp_all

theorem afterStep_done {s s' : State} {a : Action} (h : afterStep s a = some s')
    (hd : s.reader = .done) : s'.reader = .done ∧ s'.exit = s.exit := by
  unfold afterStep at h
  split at h
  · simp at h
  · cases a <;> simp only at h <;> (repeat' split at h) <;> simp at h <;> subst h <;>
      simp_all

/-- From a state in which the call has ended, the process is ended only by a
read of the reader goroutine: on the closed file, or of an error record. -/
theorem exec_exit {sched : List Action} {s s' : State} {o : Outcome}
    (h : exec s sched = some s') (ho : s.outcome = some o) (hn : s.exit = none)
    (err : String) (he : s'.exit = some err) :
    err = fileAlreadyClosed ∨ ReadResult.error err ∈ s.pending := by
  induction sched generalizing s with
  | nil =>
    simp only [exec, Option.some.injEq] at h
    rw [← h, hn] at he
    simp at he
  | cons a rest ih =>
    obtain ⟨s₁, h₁, h₂⟩ := anyExec_cons h
    have ho₁ := step_outcome_some ho h₁
    have hafter : afterStep s a = some s₁ := by
      unfold step at h₁
      rw [ho] at h₁
      cases o <;> simp only at h₁ <;> first | exact h₁ | simp at h₁
    cases hx : s₁.exit with
    | none =>
      rcases ih h₂ ho₁ hx with hclosed | hmem
      · exact Or.inl hclosed
      · exact Or.inr (afterStep_pending hafter _ hmem)
    | some e =>
      have hrest : s' = s₁ := by
        cases rest with
        | nil =>
          simp only [exec, Option.some.injEq] at h₂
          exact h₂.symm
        | cons b more =>
          obtain ⟨s₂, h₃, _⟩ := anyExec_cons h₂
          unfold step at h₃
          rw [ho₁] at h₃
          cases o <;> simp [afterStep, hx] at h₃
      rw [hrest, hx] at he
      exact afterStep_exit hafter err (by rw [hx, he])

/-- Once the reader goroutine is done, nothing that runs after the call ends
the process. -/
theorem exec_done {sched : List Action} {s s' : State} {o : Outcome}
    (h : exec s sched = some s') (ho : s.outcome = some o) (hd : s.reader = .done) :
    s'.exit = s.exit := by
  induction sched generalizing s with
  | nil =>
    simp only [exec, Option.some.injEq] at h
    rw [h]
  | cons a rest ih =>
    obtain ⟨s₁, h₁, h₂⟩ := anyExec_cons h
    have ho₁ := step_outcome_some ho h₁
    have hafter : afterStep s a = some s₁ := by
      unfold step at h₁
      rw [ho] at h₁
      cases o <;> simp only at h₁ <;> first | exact h₁ | simp at h₁
    obtain ⟨hd₁, hx⟩ := afterStep_done hafter hd
    rw [ih h₂ ho₁ hd₁, hx]

/-! ## What reaches the workers, whatever the run -/

/-- The rows the workers receive along any schedule, enabled to its end or
not, are an initial segment of the rows on their way at the start. -/
theorem deliveries_prefix (s : State) (sched : List Action) :
    ∃ later, deliveries s sched ++ later = flow s := by
  induction sched generalizing s with
  | nil => exact ⟨flow s, by simp [deliveries]⟩
  | cons a rest ih =>
    cases h : step s a with
    | none => exact ⟨flow s, by simp [deliveries, h]⟩
    | some s' =>
      obtain ⟨later, hl⟩ := ih s'
      exact ⟨later, by simp only [deliveries, h, List.append_assoc, hl, step_flow h]⟩

theorem deliveries_of_flow_nil {s : State} (h : flow s = []) (sched : List Action) :
    deliveries s sched = [] := by
  obtain ⟨later, hl⟩ := deliveries_prefix s sched
  rw [h] at hl
  exact (List.append_eq_nil.1 hl).1

theorem callStep_no_workers {s s' : State} {a : Action} (h : callStep s a = some s')
    (hw : s.workers = []) (hr : s.resultsBuf = []) :
    delivered s a = [] ∧ s'.workers = [] ∧ s'.resultsBuf = [] := by
  unfold callStep at h
  split at h
  · simp at h
  · cases a <;> simp only at h <;> (repeat' split at h) <;> simp at h <;> subst h <;>
      simp_all [delivered]

theorem afterStep_no_workers {s s' : State} {a : Action} (h : afterStep s a = some s')
    (hw : s.workers = []) (hr : s.resultsBuf = []) :
    delivered s a = [] ∧ s'.workers = [] ∧ s'.resultsBuf = [] := by
  unfold afterStep at h
  split at h
  · simp at h
  · cases a <;> simp only at h <;> (repeat' split at h) <;> simp at h <;> subst h <;>
      simp_all [delivered]

theorem step_no_workers {s s' : State} {a : Action} (h : step s a = some s')
    (hw : s.workers = []) (hr : s.resultsBuf = []) :
    delivered s a = [] ∧ s'.workers = [] ∧ s'.resultsBuf = [] := by
  unfold step at h
  split at h
  · exact callStep_no_workers h hw hr
  · exact afterStep_no_workers h hw hr
  · exact afterStep_no_workers h hw hr
  · simp at h

/-- Without workers no row is ever received. -/
theorem deliveries_no_workers {s : State} (hw : s.workers = []) (hr : s.resultsBuf = [])
    (sched : List Action) : deliveries s sched = [] := by
  induction sched generalizing s with
  | nil => rfl
  | cons a rest ih =>
    cases h : step s a with
    | none => simp [deliveries, h]
    | some s' =>
      obtain ⟨hd, hw', hr'⟩ := step_no_workers h hw hr
      simp [deliveries, h, hd, ih hw' hr']

theorem exec_no_workers {sched : List Action} {s s' : State} (h : exec s sched = some s')
    (hw : s.workers = []) (hr : s.resultsBuf = []) :
    s'.workers = [] ∧ s'.resultsBuf = [] := by
  induction sched generalizing s with
  | nil =>
    simp only [exec, Option.some.injEq] at h
    exact h ▸ ⟨hw, hr⟩
  | cons a rest ih =>
    obtain ⟨s₁, h₁, h₂⟩ := anyExec_cons h
    obtain ⟨_, hw', hr'⟩ := step_no_workers h₁ hw hr
    exact ih h₂ hw' hr'

/-- A call that returns without cancellation has passed every data row to its
workers. -/
theorem received_of_returned {lim : Limits} {p : ParserConfig} {header : Row}
    {rest : List ReadResult} {sched : List Action} {L : List DomainCount}
    (hB : 0 ≤ p.BufferSize) (hB' : p.BufferSize ≤ lim.maxCap)
    (hW' : p.WorkerCount ≤ lim.maxWorkers) (hW : 1 ≤ p.WorkerCount)
    (hc : Action.cancel ∉ sched)
    (h : DomainCounts lim p false (.ok (.record header :: rest)) sched = some (.returned L)) :
    received lim p false (.ok (.record header :: rest)) sched = recordRows rest := by
  obtain ⟨s', hrun, hout⟩ := DomainCounts_iff.1 h
  obtain ⟨pre, post, s₁, hsplit, hcall, hafter, hoeq, _⟩ := exec_split hrun
  have hout₁ : s₁.outcome = some (.returned L) := by rw [← hoeq, hout]
  obtain ⟨_, hdone, hbuf, hpend⟩ :=
    returned_drained hW (not_mem_of_append_left hsplit hc) hcall hout₁
  have hflow₁ : flow s₁ = [] := by simp [flow, hdone, hbuf, hpend, readerRow, recordRows]
  have hflow' : flow s' = [] := by
    have := exec_flow hafter
    rw [hflow₁] at this
    exact (List.append_eq_nil.1 this).2
  have hall := exec_flow hrun
  rw [hflow', List.append_nil, start_running lim p false header rest hB hB' hW'] at hall
  unfold received
  rw [start_running lim p false header rest hB hB' hW', hall]
  simp [flow, running, readerRow]

/-! ## A call without workers -/

/-- Without workers the caller can always leave: `results` is closed, if it is
not yet, and the empty list is returned. -/
theorem no_workers_completion {s : State} (ho : s.outcome = none) (hw : s.workers = [])
    (hq : s.resultsBuf = [] ∧ s.domainUserCount = []) :
    ∃ more s', Action.cancel ∉ more ∧ callExec s more = some s' ∧
      s'.outcome = some (.returned []) := by
  cases hc : s.resultsClosed with
  | true =>
    exact ⟨[.mainReturn], { s with outcome := some (.returned []) }, by simp,
      by simp [callExec, callStep, ho, hc, hq.1, hq.2, domainUsage, sortStrings], rfl⟩
  | false =>
    exact ⟨[.closeResults, .mainReturn],
      { s with resultsClosed := true, outcome := some (.returned []) }, by simp,
      by simp [callExec, callStep, ho, hc, hw, hq.1, hq.2, domainUsage, sortStrings], rfl⟩

/-- After a return without workers, a reader that finds room in `rows` for
every row reads them all and then fails on the closed file. -/
theorem exec_fillSchedule (rows buf : List Row) (ctxDone : Bool) (cap : Nat)
    (h : buf.length + rows.length ≤ cap) :
    exec { pending := rows.map .record, reader := .reading, rowsBuf := buf, workers := [],
           resultsBuf := [], resultsClosed := true, domainUserCount := [],
           ctxDone := ctxDone, bufferSize := cap, outcome := some (.returned []),
           exit := none } (fillSchedule rows)
      = some { pending := [], reader := .reading, rowsBuf := buf ++ rows, workers := [],
               resultsBuf := [], resultsClosed := true, domainUserCount := [],
               ctxDone := ctxDone, bufferSize := cap, outcome := some (.returned []),
               exit := some fileAlreadyClosed } := by
  induction rows generalizing buf with
  | nil => simp [fillSchedule, exec, step, afterStep]
  | cons row rest ih =>
    have hlt : buf.length < cap := by
      simp only [List.length_cons] at h
      omega
    have hrest : (buf ++ [row]).length + rest.length ≤ cap := by
      simp only [List.length_append, List.length_cons, List.length_nil] at h ⊢
      omega
    simp only [fillSchedule, exec, step, afterStep, List.map_cons, Option.isSome_none,
      Bool.false_eq_true, if_false, Option.some_bind, hlt, if_true]
    rw [ih (buf ++ [row]) hrest]
    simp

/-! ## The claims -/

/-- C1: on every input, under every configuration and schedule, a list that
`DomainCounts` returns (with a nil error) is strictly ascending by `Domain` in
the string order, so no two of its entries have the same `Domain`. -/
theorem DomainCounts_sorted (lim : Limits) (p : ParserConfig) (ctxDone : Bool)
    (file : Except String (List ReadResult)) (sched : List Action) (L : List DomainCount)
    (h : DomainCounts lim p ctxDone file sched = some (.returned L)) :
    (L.map (·.Domain)).Pairwise (· < ·) ∧ (L.map (·.Domain)).Nodup := by
  obtain ⟨pre, _, _, hcall⟩ := DomainCounts_call h
  obtain ⟨s', hrun, hL⟩ := DomainCounts_eq_some.1 hcall
  obtain ⟨_, _, _, hLeq⟩ := returned_state hrun hL
  have hwf := (exec_inv hrun (start_inv lim p ctxDone file)).wf
  have hs := domainUsage_strict hwf
  rw [← hLeq] at hs
  exact ⟨hs, hs.imp fun hab => ne_of_lt hab⟩

/-- Witness of C1 on the sample file: the call returns, and the list is sorted. -/
theorem DomainCounts_sorted_witness :
    DomainCounts sampleLimits oneWorker false sampleFile sampleSchedule
        = some (.returned [⟨"x.com", 2⟩, ⟨"y.com", 1⟩]) ∧
      (([⟨"x.com", 2⟩, ⟨"y.com", 1⟩] : List DomainCount).map (·.Domain)).Pairwise (· < ·) ∧
      (([⟨"x.com", 2⟩, ⟨"y.com", 1⟩] : List DomainCount).map (·.Domain)).Nodup :=
  ⟨by decide,
    DomainCounts_sorted sampleLimits oneWorker false sampleFile sampleSchedule _ (by decide)⟩

/-- C2 (counterexample): one worker, the sample file, the context cancelled
after the reader has read the first row: the worker leaves, and the call
returns the empty list although two rows have the domain `x.com`. -/
theorem DomainCounts_counts_counterexample :
    DomainCounts sampleLimits oneWorker false sampleFile
        [.read, .cancel, .ctxExit 0, .closeResults, .mainReturn] = some (.returned []) ∧
    (⟨"x.com", 2⟩ : DomainCount) ∉ ([] : List DomainCount) ∧
    2 = ((dataRows sampleFile).filter fun row => rowDomain row = some "x.com").length := by
  decide

/-- C2 (amended): on a file of a header and data rows in which every row of
more than three fields has an `@` in its third field, with at least one
worker, a call whose context is not cancelled returns a list with an entry
`(d, n)` exactly when `n` is positive and is the number of data rows from which
the worker extracts `d`; so the counts add up to the number of data rows of
more than three fields.  When the machine can allocate the channels and start
the workers such a call does return: every run is of bounded length, ends in
no other way than by returning a list, is followed by nothing that ends the
process, and can be completed. -/
theorem DomainCounts_counts (lim : Limits) (p : ParserConfig) (header : Row)
    (rows : List Row) (sched : List Action) (hW : 1 ≤ p.WorkerCount)
    (hat : ∀ row ∈ rows, row.length > 3 → '@' ∈ (row.getD 2 "").data)
    (hc : Action.cancel ∉ sched) :
    (∀ L, DomainCounts lim p false (.ok (.record header :: rows.map .record)) sched
        = some (.returned L) →
      (∀ d n, (⟨d, n⟩ : DomainCount) ∈ L ↔
        0 < n ∧ n = (rows.filter fun row => rowDomain row = some d).length) ∧
      (L.map (·.NumberOfUsers)).sum = (rows.filter fun row => row.length > 3).length) ∧
    (0 ≤ p.BufferSize → p.BufferSize ≤ lim.maxCap → p.WorkerCount ≤ lim.maxWorkers →
      ∀ s, run lim p false (.ok (.record header :: rows.map .record)) sched = some s →
        sched.length ≤ 7 * rows.length + p.WorkerCount.toNat + 5 ∧
        s.exit = none ∧
        (∀ o, s.outcome = some o → ∃ L, o = .returned L) ∧
        ∃ more L, Action.cancel ∉ more ∧
          DomainCounts lim p false (.ok (.record header :: rows.map .record))
            (sched ++ more) = some (.returned L)) := by
  have hbad : ∀ row ∈ rows, isBad row = false := fun row hr => isBad_of_at (hat row hr)
  refine ⟨fun L h => ?_, fun hB hB' hW' s hrun => ?_⟩
  · obtain ⟨pre, post, hsplit, hcall⟩ := DomainCounts_call h
    have hL := returned_eq hW (not_mem_of_append_left hsplit hc) hcall
    simp only [dataRows, dataRecords, recordRows_map_record] at hL
    refine ⟨fun d n => ?_, ?_⟩
    · rw [hL, mem_domainUsage (WellFormed.aggregate _), lookupCount_aggregate,
        count_sentDomains]
    · rw [hL, sum_domainUsage_aggregate, length_sentDomains hbad]
  · have hout : ∀ sched' o, Action.cancel ∉ sched' →
        DomainCounts lim p false (.ok (.record header :: rows.map .record)) sched'
          = some o → o = .returned (domainUsage (aggregate (sentDomains rows))) := by
      intro sched' o hc' ho
      obtain ⟨pre, post, hsplit, hcall⟩ := DomainCounts_call ho
      exact clean_outcome hW hB hB' hW' hbad (not_mem_of_append_left hsplit hc') hcall
    refine ⟨by simpa using anyRun_length hrun, ?_, ?_, ?_⟩
    · obtain ⟨pre, post, s₁, hsplit, hcall, hafter, _, hnone⟩ := exec_split hrun
      have hx₁ : s₁.exit = none := by
        rw [callExec_exit hcall, start_running lim p false header _ hB hB' hW']
        rfl
      cases ho₁ : s₁.outcome with
      | none =>
        have hpost := hnone ho₁
        subst hpost
        simp only [exec, Option.some.injEq] at hafter
        rw [← hafter, hx₁]
      | some o =>
        have hcall' : callOutcome lim p false (.ok (.record header :: rows.map .record))
            pre = some o := DomainCounts_eq_some.2 ⟨s₁, hcall, ho₁⟩
        have hpre := not_mem_of_append_left hsplit hc
        have ho := clean_outcome hW hB hB' hW' hbad hpre hcall'
        subst ho
        obtain ⟨_, hdone, _, _⟩ := returned_drained hW hpre hcall ho₁
        rw [exec_done hafter ho₁ hdone, hx₁]
    · intro o ho
      exact ⟨_, hout sched o hc (DomainCounts_iff.2 ⟨s, hrun, ho⟩)⟩
    · obtain ⟨more, o, hm, ho⟩ := anyRun_completes hrun
      have hcm : Action.cancel ∉ sched ++ more := by
        simp only [List.mem_append, not_or]
        exact ⟨hc, hm⟩
      exact ⟨more, _, hm, by rw [ho, hout _ o hcm ho]⟩

/-- Witness of C2 (amended) on the rows of the sample file. -/
theorem DomainCounts_counts_witness :
    DomainCounts sampleLimits oneWorker false
        (.ok (.record sampleHeader :: ([["1", "ann", "a@x.com", "F"],
          ["2", "bob", "b@y.com", "M"], ["3", "cat", "c@x.com", "F"]] : List Row).map .record))
        sampleSchedule = some (.returned [⟨"x.com", 2⟩, ⟨"y.com", 1⟩]) ∧
    (∀ L, DomainCounts sampleLimits oneWorker false
        (.ok (.record sampleHeader :: ([["1", "ann", "a@x.com", "F"],
          ["2", "bob", "b@y.com", "M"], ["3", "cat", "c@x.com", "F"]] : List Row).map .record))
        sampleSchedule = some (.returned L) →
      (∀ d n, (⟨d, n⟩ : DomainCount) ∈ L ↔
        0 < n ∧ n = (([["1", "ann", "a@x.com", "F"], ["2", "bob", "b@y.com", "M"],
          ["3", "cat", "c@x.com", "F"]] : List Row).filter
            fun row => rowDomain row = some d).length) ∧
      (L.map (·.NumberOfUsers)).sum
        = (([["1", "ann", "a@x.com", "F"], ["2", "bob", "b@y.com", "M"],
          ["3", "cat", "c@x.com", "F"]] : List Row).filter fun row => row.length > 3).length) ∧
    (0 ≤ oneWorker.BufferSize → oneWorker.BufferSize ≤ sampleLimits.maxCap →
      oneWorker.WorkerCount ≤ sampleLimits.maxWorkers →
      ∀ s, run sampleLimits oneWorker false
        (.ok (.record sampleHeader :: ([["1", "ann", "a@x.com", "F"],
          ["2", "bob", "b@y.com", "M"], ["3", "cat", "c@x.com", "F"]] : List Row).map .record))
        sampleSchedule = some s →
        sampleSchedule.length ≤ 7 * ([["1", "ann", "a@x.com", "F"],
          ["2", "bob", "b@y.com", "M"], ["3", "cat", "c@x.com", "F"]] : List Row).length
            + oneWorker.WorkerCount.toNat + 5 ∧
        s.exit = none ∧
        (∀ o, s.outcome = some o → ∃ L, o = .returned L) ∧
        ∃ more L, Action.cancel ∉ more ∧
          DomainCounts sampleLimits oneWorker false
            (.ok (.record sampleHeader :: ([["1", "ann", "a@x.com", "F"],
              ["2", "bob", "b@y.com", "M"], ["3", "cat", "c@x.com", "F"]] : List Row).map
                .record))
            (sampleSchedule ++ more) = some (.returned L)) :=
  ⟨by decide,
    DomainCounts_counts sampleLimits oneWorker sampleHeader
      [["1", "ann", "a@x.com", "F"], ["2", "bob", "b@y.com", "M"],
        ["3", "cat", "c@x.com", "F"]]
      sampleSchedule (by decide) (by decide) (by decide)⟩

/-- C3 (failing input): a data row of four fields whose third field has no `@`
makes the worker index the second piece of a one-piece split: the call panics
instead of skipping the row, under every schedule without cancellation, while
the same file without that row returns the empty list. -/
theorem worker_panics_without_at :
    worker ["1", "bob", "bob.example.com", "M"] = .indexOutOfRange ∧
    DomainCounts sampleLimits oneWorker false atlessFile [.read, .handRow 0, .process 0]
      = some .panicked ∧
    (∀ lim sched o, Action.cancel ∉ sched →
      DomainCounts lim oneWorker false atlessFile sched = some o → o = .panicked) ∧
    DomainCounts sampleLimits oneWorker false (.ok [.record sampleHeader])
      [.read, .recvClosed 0, .closeResults, .mainReturn] = some (.returned []) := by
  refine ⟨by decide, by decide, fun lim sched o hc h => ?_, by decide⟩
  obtain ⟨pre, post, hsplit, hcall⟩ := DomainCounts_call h
  have hpre := not_mem_of_append_left hsplit hc
  obtain ⟨s', hrun, hout⟩ := DomainCounts_eq_some.1 hcall
  by_cases hW' : (lim.maxWorkers : Int) < oneWorker.WorkerCount
  · have hst : start lim oneWorker false atlessFile = ended .panicked [] false := by
      simp [start, atlessFile, hW']
    have hs' := (exec_ended hrun (by simp [hst, ended])).1
    rw [hs', hst] at hout
    simpa [ended] using hout.symm
  have hst := start_running lim oneWorker false sampleHeader
    [.record ["1", "bob", "bob.example.com", "M"]] (by decide)
    (by simp [oneWorker]) (by omega)
  have hrun' : callExec (start lim oneWorker false
      (.ok (.record sampleHeader :: [.record ["1", "bob", "bob.example.com", "M"]])))
      pre = some s' := hrun
  rw [hst] at hrun'
  obtain ⟨pre', s₀, a, hpre', hstep⟩ := exec_last hrun' (by simp [running]) (by simp [hout])
  cases o with
  | panicked => rfl
  | failed e => exact absurd hout (step_not_failed hstep e)
  | fatal e =>
    have hmem := exec_pending hpre' _ (step_fatal hstep e hout)
    simp [running] at hmem
  | returned L =>
    have hclean := (returned_clean (by decide) hpre hcall).2
    have hbad : (dataRows atlessFile).countP isBad ≠ 0 := by decide
    exact absurd hclean hbad

/-- C4 (counterexample): for the address `a@b@c` the worker sends `b`, not the
substring `b@c` that follows the first `@`. -/
theorem worker_sends_second_piece_counterexample :
    worker ["1", "ann", "a@b@c", "F"] = .send "b" ∧
    afterFirstAt "a@b@c" = "b@c" ∧
    worker ["1", "ann", "a@b@c", "F"] ≠ .send (afterFirstAt "a@b@c") := by
  decide

/-- C4 (amended): for a row of more than three fields whose third field
contains `@`, the worker sends the part of that field between its first `@`
and its next `@` (the end of the field when there is none); this is the whole
substring following the first `@` exactly when that substring has no `@`. -/
theorem worker_sends_second_piece (row : Row) (hlen : row.length > 3)
    (hat : '@' ∈ (row.getD 2 "").data) :
    worker row
      = .send (String.mk ((afterFirstAt (row.getD 2 "")).data.takeWhile (· ≠ '@'))) ∧
    (worker row = .send (afterFirstAt (row.getD 2 "")) ↔
      '@' ∉ (afterFirstAt (row.getD 2 "")).data) := by
  have hw := worker_of_mem hlen hat
  refine ⟨hw, ?_⟩
  rw [hw]
  constructor
  · intro h hmem
    have h' : (afterFirstAt (row.getD 2 "")).data.takeWhile (· ≠ '@')
        = (afterFirstAt (row.getD 2 "")).data := by
      have := congrArg String.data (RowEffect.send.inj h)
      simpa using this
    have := List.takeWhile_eq_self_iff.1 h' _ hmem
    simp at this
  · intro h
    have h' : (afterFirstAt (row.getD 2 "")).data.takeWhile (· ≠ '@')
        = (afterFirstAt (row.getD 2 "")).data :=
      List.takeWhile_eq_self_iff.2 fun c hc => by
        simpa using fun hcc : c = '@' => h (hcc ▸ hc)
    rw [h']

/-- Witness of C4 (amended) on the address `a@b@c`. -/
theorem worker_sends_second_piece_witness :
    worker ["1", "ann", "a@b@c", "F"]
      = .send (String.mk ((afterFirstAt
          ((["1", "ann", "a@b@c", "F"] : Row).getD 2 "")).data.takeWhile (· ≠ '@'))) ∧
    (worker ["1", "ann", "a@b@c", "F"]
        = .send (afterFirstAt ((["1", "ann", "a@b@c", "F"] : Row).getD 2 "")) ↔
      '@' ∉ (afterFirstAt ((["1", "ann", "a@b@c", "F"] : Row).getD 2 "")).data) :=
  worker_sends_second_piece ["1", "ann", "a@b@c", "F"] (by decide) (by decide)

/-- C5 (counterexample): the row with the address `bob@` is counted: the call
returns one entry whose `Domain` is the empty string. -/
theorem empty_domain_counted_counterexample :
    DomainCounts sampleLimits oneWorker false emptyDomainFile oneRowSchedule
      = some (.returned [⟨"", 1⟩]) := by
  decide

/-- C5 (amended): a data row of more than three fields whose third field has
an empty part right after its first `@` is not skipped: the worker sends the
empty string for it, and a call with at least one worker that returns without
cancellation lists the empty `Domain` with the number of such rows. -/
theorem empty_domain_counted (lim : Limits) (p : ParserConfig)
    (file : Except String (List ReadResult))
    (sched : List Action) (L : List DomainCount) (row : Row)
    (hW : 1 ≤ p.WorkerCount) (hc : Action.cancel ∉ sched)
    (h : DomainCounts lim p false file sched = some (.returned L))
    (hmem : row ∈ dataRows file) (hlen : row.length > 3)
    (hat : '@' ∈ (row.getD 2 "").data)
    (hseg : (afterFirstAt (row.getD 2 "")).data.takeWhile (· ≠ '@') = []) :
    worker row = .send "" ∧
    ∃ n, 0 < n ∧ (⟨"", n⟩ : DomainCount) ∈ L ∧
      n = ((dataRows file).filter fun r => rowDomain r = some "").length := by
  have hw : worker row = .send "" := by
    rw [worker_of_mem hlen hat, hseg]
  have hrow : row ∈ (dataRows file).filter fun r => rowDomain r = some "" := by
    simp [List.mem_filter, hmem, rowDomain, hw]
  obtain ⟨pre, post, hsplit, hcall⟩ := DomainCounts_call h
  refine ⟨hw, _, List.length_pos_of_mem hrow, ?_, rfl⟩
  rw [returned_eq hW (not_mem_of_append_left hsplit hc) hcall,
    mem_domainUsage (WellFormed.aggregate _), lookupCount_aggregate, count_sentDomains]
  exact ⟨List.length_pos_of_mem hrow, rfl⟩

/-- Witness of C5 (amended) on the file whose data row has the address `bob@`. -/
theorem empty_domain_counted_witness :
    worker ["1", "bob", "bob@", "M"] = .send "" ∧
    ∃ n, 0 < n ∧ (⟨"", n⟩ : DomainCount) ∈ ([⟨"", 1⟩] : List DomainCount) ∧
      n = ((dataRows emptyDomainFile).filter fun r => rowDomain r = some "").length :=
  empty_domain_counted sampleLimits oneWorker emptyDomainFile oneRowSchedule [⟨"", 1⟩]
    ["1", "bob", "bob@", "M"] (by decide) (by decide) (by decide) (by decide) (by decide)
    (by decide) (by decide)

/-- C6 (counterexample): the header and a row are read, the next record fails
to decode, and the call ends in `log.Fatal` rather than by returning the error. -/
theorem structural_error_is_fatal_counterexample :
    DomainCounts sampleLimits oneWorker false brokenFile
        [.read, .handRow 0, .process 0, .handResult 0, .read]
      = some (.fatal "parse error on line 3") ∧
    (Outcome.fatal "parse error on line 3" ≠ .failed "parse error on line 3") := by
  decide

/-- C6 (amended): when the header is read and rows are followed by a record
with a decode error, no schedule makes the call return that or any error; a
call that ends in `log.Fatal` logged that first error; with at least one
worker and no cancellation the call never returns a list; and when the machine
can allocate the channels and start the workers and none of the rows before
the error is bad, the reader does reach the record: worker 0 handling the rows one by one, the call
ends in `log.Fatal` of that error. -/
theorem structural_error_is_fatal (lim : Limits) (p : ParserConfig) (ctxDone : Bool)
    (header : Row) (rows : List Row) (err : String) (tail : List ReadResult)
    (sched : List Action) (o : Outcome)
    (h : DomainCounts lim p ctxDone
      (.ok (.record header :: (rows.map .record ++ .error err :: tail))) sched = some o) :
    (∀ e, o ≠ .failed e) ∧
    (∀ e, o = .fatal e → e = err) ∧
    (ctxDone = false → Action.cancel ∉ sched → 1 ≤ p.WorkerCount → ∀ L, o ≠ .returned L) ∧
    (1 ≤ p.WorkerCount → 0 ≤ p.BufferSize → p.BufferSize ≤ lim.maxCap →
      p.WorkerCount ≤ lim.maxWorkers → (∀ row ∈ rows, isBad row = false) →
      DomainCounts lim p ctxDone
        (.ok (.record header :: (rows.map .record ++ .error err :: tail)))
        (feedSchedule rows ++ [.read]) = some (.fatal err)) := by
  obtain ⟨pre, post, hsplit, hcall⟩ := DomainCounts_call h
  obtain ⟨s', hrun, ho⟩ := DomainCounts_eq_some.1 hcall
  refine ⟨?_, ?_, ?_, ?_⟩
  · intro e he
    by_cases hB : p.BufferSize < 0 ∨ (lim.maxCap : Int) < p.BufferSize
        ∨ (lim.maxWorkers : Int) < p.WorkerCount
    · have hst : start lim p ctxDone
          (.ok (.record header :: (rows.map .record ++ .error err :: tail)))
          = ended .panicked [] ctxDone := by
        simp [start, hB]
      have hs' := (exec_ended hrun (by simp [hst, ended])).1
      rw [hs', hst, he] at ho
      simp [ended] at ho
    · have hst := start_running lim p ctxDone header
        (rows.map .record ++ .error err :: tail) (by omega) (by omega) (by omega)
      obtain ⟨_, s₀, a, _, hstep⟩ := exec_last hrun (by simp [hst, running]) (by simp [ho])
      exact step_not_failed hstep e (he ▸ ho)
  · intro e he
    by_cases hB : p.BufferSize < 0 ∨ (lim.maxCap : Int) < p.BufferSize
        ∨ (lim.maxWorkers : Int) < p.WorkerCount
    · have hst : start lim p ctxDone
          (.ok (.record header :: (rows.map .record ++ .error err :: tail)))
          = ended .panicked [] ctxDone := by
        simp [start, hB]
      have hs' := (exec_ended hrun (by simp [hst, ended])).1
      rw [hs', hst, he] at ho
      simp [ended] at ho
    · have hst := start_running lim p ctxDone header
        (rows.map .record ++ .error err :: tail) (by omega) (by omega) (by omega)
      obtain ⟨pre', s₀, a, hpre, hstep⟩ :=
        exec_last hrun (by simp [hst, running]) (by simp [ho])
      obtain ⟨t, ht⟩ := step_fatal_head hstep e (he ▸ ho)
      obtain ⟨rows', hrows'⟩ := exec_consumed hpre
        (rows.map .record ++ .error err :: tail) ⟨[], by simp [hst, running]⟩
      rw [ht] at hrows'
      exact (first_error_unique rows rows' err e tail t hrows').symm
  · intro hctx hc hW L hL
    subst hctx
    have := (returned_clean hW (not_mem_of_append_left hsplit hc) (hL ▸ hcall)).1
    simp [dataRecords, isError, List.countP_append, List.countP_cons] at this
  · intro hW hB hB' hW' hbad
    obtain ⟨n, hn⟩ : ∃ n, p.WorkerCount.toNat = n + 1 :=
      ⟨p.WorkerCount.toNat - 1, by omega⟩
    apply call_DomainCounts
    simp only [callOutcome, callRun, start_running lim p ctxDone header _ hB hB' hW', hn,
      List.replicate_succ]
    rw [exec_append, exec_feedSchedule rows hbad, Option.some_bind]
    simp [callExec, callStep, running]

/-- Witness of C6 (amended) on the broken sample file. -/
theorem structural_error_is_fatal_witness :
    (∀ e, Outcome.fatal "parse error on line 3" ≠ .failed e) ∧
    (∀ e, Outcome.fatal "parse error on line 3" = .fatal e → e = "parse error on line 3") ∧
    (false = false →
      Action.cancel ∉ [Action.read, .handRow 0, .process 0, .handResult 0, .read] →
      1 ≤ oneWorker.WorkerCount → ∀ L, Outcome.fatal "parse error on line 3" ≠ .returned L) ∧
    (1 ≤ oneWorker.WorkerCount → 0 ≤ oneWorker.BufferSize →
      oneWorker.BufferSize ≤ sampleLimits.maxCap →
      oneWorker.WorkerCount ≤ sampleLimits.maxWorkers →
      (∀ row ∈ ([["1", "ann", "a@x.com", "F"]] : List Row), isBad row = false) →
      DomainCounts sampleLimits oneWorker false
        (.ok (.record sampleHeader ::
          (([["1", "ann", "a@x.com", "F"]] : List Row).map .record
            ++ .error "parse error on line 3" :: [])))
        (feedSchedule [["1", "ann", "a@x.com", "F"]] ++ [.read])
        = some (.fatal "parse error on line 3")) :=
  structural_error_is_fatal sampleLimits oneWorker false sampleHeader
    [["1", "ann", "a@x.com", "F"]]
    "parse error on line 3" [] [.read, .handRow 0, .process 0, .handResult 0, .read]
    (.fatal "parse error on line 3") (by decide)

/-- C7 (counterexample): with a context already cancelled at the call, and
with one cancelled after the first row is counted, the call returns a list and
a nil error: the empty list, and a list missing two of the three rows. -/
theorem cancelled_call_returns_list_counterexample :
    DomainCounts sampleLimits oneWorker true sampleFile [.ctxExit 0, .closeResults, .mainReturn]
      = some (.returned []) ∧
    DomainCounts sampleLimits oneWorker false sampleFile
        [.read, .handRow 0, .process 0, .handResult 0, .cancel, .ctxExit 0, .closeResults,
         .mainReturn]
      = some (.returned [⟨"x.com", 1⟩]) := by
  decide

/-- C7 (amended): whether or not the context is cancelled, at the call or
during it, the call never returns a cancellation error: an error it returns is
the one from opening the file or reading the header, which the call returns at
once without cancellation too; and when it returns a list (with a nil error)
the list may be incomplete: the count of every entry is at least one and at
most the number of data rows with that domain. -/
theorem cancelled_call_returns_list (lim : Limits) (p : ParserConfig) (ctxDone : Bool)
    (file : Except String (List ReadResult)) (sched : List Action) (o : Outcome)
    (h : DomainCounts lim p ctxDone file sched = some o) :
    (∀ e, o = .failed e → DomainCounts lim p false file [] = some (.failed e)) ∧
    (∀ L, o = .returned L → ∀ dc ∈ L, 1 ≤ dc.NumberOfUsers ∧
      dc.NumberOfUsers ≤
        ((dataRows file).filter fun r => rowDomain r = some dc.Domain).length) := by
  obtain ⟨pre, post, hsplit, hcall⟩ := DomainCounts_call h
  obtain ⟨s', hrun, ho⟩ := DomainCounts_eq_some.1 hcall
  refine ⟨?_, ?_⟩
  · intro e he
    subst he
    by_cases hs : (start lim p ctxDone file).outcome = none
    · obtain ⟨_, s₀, a, _, hstep⟩ := exec_last hrun hs (by simp [ho])
      exact absurd ho (step_not_failed hstep e)
    · have hs' := (exec_ended hrun hs).1
      rw [hs'] at ho
      simp [DomainCounts, run, exec, start_failed ho]
  · intro L hL dc hdc
    subst hL
    obtain ⟨hs, _, _, hLeq⟩ := returned_state hrun ho
    have hwf := (exec_inv hrun (start_inv lim p ctxDone file)).wf
    rw [hLeq] at hdc
    obtain ⟨hpos, hn⟩ := (mem_domainUsage hwf dc.Domain dc.NumberOfUsers).1 hdc
    refine ⟨hpos, ?_⟩
    rw [hn, ← count_sentDomains]
    exact counts_le hrun hs dc.Domain

/-- Witness of C7 (amended): the sample file, the context cancelled after the
first row is counted; the list returned misses two of the three rows. -/
theorem cancelled_call_returns_list_witness :
    DomainCounts sampleLimits oneWorker false sampleFile
        [.read, .handRow 0, .process 0, .handResult 0, .cancel, .ctxExit 0, .closeResults,
         .mainReturn]
      = some (.returned [⟨"x.com", 1⟩]) ∧
    (∀ e, Outcome.returned [⟨"x.com", 1⟩] = .failed e →
      DomainCounts sampleLimits oneWorker false sampleFile [] = some (.failed e)) ∧
    (∀ L, Outcome.returned [⟨"x.com", 1⟩] = .returned L → ∀ dc ∈ L,
      1 ≤ dc.NumberOfUsers ∧
      dc.NumberOfUsers ≤
        ((dataRows sampleFile).filter fun r => rowDomain r = some dc.Domain).length) :=
  ⟨by decide,
    cancelled_call_returns_list sampleLimits oneWorker false sampleFile
      [.read, .handRow 0, .process 0, .handResult 0, .cancel, .ctxExit 0, .closeResults,
       .mainReturn]
      (.returned [⟨"x.com", 1⟩]) (by decide)⟩

/-- C8: the returned list does not depend on the order in which the domains
reach the aggregator: aggregating and finalising a sequence of domains and any
permutation of it give the same list, and two calls on the same file that
return without cancellation, under any two configurations with at least one
worker and any two schedules, return the same list. -/
theorem result_order_independent (l₁ l₂ : List String) (hperm : l₁.Perm l₂)
    (lim : Limits) (p₁ p₂ : ParserConfig) (file : Except String (List ReadResult))
    (sched₁ sched₂ : List Action) (L₁ L₂ : List DomainCount)
    (hW₁ : 1 ≤ p₁.WorkerCount) (hW₂ : 1 ≤ p₂.WorkerCount)
    (hc₁ : Action.cancel ∉ sched₁) (hc₂ : Action.cancel ∉ sched₂)
    (h₁ : DomainCounts lim p₁ false file sched₁ = some (.returned L₁))
    (h₂ : DomainCounts lim p₂ false file sched₂ = some (.returned L₂)) :
    domainUsage (aggregate l₁) = domainUsage (aggregate l₂) ∧ L₁ = L₂ := by
  refine ⟨?_, ?_⟩
  · refine domainUsage_congr (WellFormed.aggregate l₁) (WellFormed.aggregate l₂) fun k => ?_
    rw [lookupCount_aggregate, lookupCount_aggregate, hperm.count_eq]
  · obtain ⟨pre₁, _, hs₁, hcall₁⟩ := DomainCounts_call h₁
    obtain ⟨pre₂, _, hs₂, hcall₂⟩ := DomainCounts_call h₂
    rw [returned_eq hW₁ (not_mem_of_append_left hs₁ hc₁) hcall₁,
      returned_eq hW₂ (not_mem_of_append_left hs₂ hc₂) hcall₂]

/-- Witness of C8: the sample file under one worker without buffers and under
ten workers with buffers, the domains arriving in opposite orders. -/
theorem result_order_independent_witness :
    domainUsage (aggregate ["x.com", "y.com", "x.com"])
        = domainUsage (aggregate ["x.com", "x.com", "y.com"]) ∧
      ([⟨"x.com", 2⟩, ⟨"y.com", 1⟩] : List DomainCount) = [⟨"x.com", 2⟩, ⟨"y.com", 1⟩] :=
  result_order_independent ["x.com", "y.com", "x.com"] ["x.com", "x.com", "y.com"]
    (by decide) sampleLimits oneWorker tenWorkers sampleFile sampleSchedule bufferedSchedule
    [⟨"x.com", 2⟩, ⟨"y.com", 1⟩] [⟨"x.com", 2⟩, ⟨"y.com", 1⟩]
    (by decide) (by decide) (by decide) (by decide) (by decide) (by decide)

/-- C9 (counterexample): with a negative buffer size `make` panics before the
header is read, so an empty file gives no error return; and with no worker the
call on the sample file returns while no schedule passes any row to a worker. -/
theorem header_discarded_counterexample :
    DomainCounts sampleLimits negativeBuffer false (.ok []) [] = some .panicked ∧
    DomainCounts sampleLimits noWorkers false sampleFile [.closeResults, .mainReturn]
      = some (.returned []) ∧
    (dataRows sampleFile).length = 3 ∧
    (∀ sched, received sampleLimits noWorkers false sampleFile sched = []) := by
  refine ⟨by decide, by decide, by decide, fun sched => ?_⟩
  exact deliveries_no_workers (by decide) (by decide) sched

/-- C9 (amended): when the machine can allocate the channels and start the
workers, exactly one leading record is dropped.  The outcome and the rows the
workers receive are the same whatever the first record holds; what the workers
receive is, under every schedule, an initial segment of the records from the
second onward, in the order of the file; a call with at least one worker that
returns without cancellation has passed every one of them to the workers and
has counted them and nothing else; on a file of rows each of which has an `@`
in its third field when it has more than three fields, every run of such a
call can be completed, and the completed call has returned and has passed
every row to the workers.  When no first record can be read (an empty file,
or an error on the first read), the call returns that error at once; whatever
the workers left behind and the context do afterwards (the schedule `after`),
the outcome stays that error, nothing ends the process, and no worker
receives a row. -/
theorem header_discarded (lim : Limits) (p : ParserConfig) (ctxDone : Bool)
    (header header' : Row) (rest : List ReadResult) (rows : List Row) (err : String)
    (tail : List ReadResult) (sched after : List Action)
    (hB : 0 ≤ p.BufferSize) (hB' : p.BufferSize ≤ lim.maxCap)
    (hW' : p.WorkerCount ≤ lim.maxWorkers) :
    (DomainCounts lim p ctxDone (.ok (.record header :: rest)) sched
        = DomainCounts lim p ctxDone (.ok (.record header' :: rest)) sched ∧
      received lim p ctxDone (.ok (.record header :: rest)) sched
        = received lim p ctxDone (.ok (.record header' :: rest)) sched) ∧
    (∃ later, received lim p ctxDone (.ok (.record header :: rest)) sched ++ later
      = recordRows rest) ∧
    (1 ≤ p.WorkerCount → ctxDone = false → Action.cancel ∉ sched →
      ∀ L, DomainCounts lim p ctxDone (.ok (.record header :: rest)) sched
          = some (.returned L) →
        received lim p ctxDone (.ok (.record header :: rest)) sched = recordRows rest ∧
        L = domainUsage (aggregate (sentDomains (recordRows rest)))) ∧
    (1 ≤ p.WorkerCount → ctxDone = false → Action.cancel ∉ sched →
      (∀ row ∈ rows, row.length > 3 → '@' ∈ (row.getD 2 "").data) →
      ∀ s, run lim p ctxDone (.ok (.record header :: rows.map .record)) sched = some s →
        ∃ more L, Action.cancel ∉ more ∧
          DomainCounts lim p ctxDone (.ok (.record header :: rows.map .record))
            (sched ++ more) = some (.returned L) ∧
          received lim p ctxDone (.ok (.record header :: rows.map .record))
            (sched ++ more) = rows) ∧
    (DomainCounts lim p ctxDone (.ok []) [] = some (.failed "EOF") ∧
      received lim p ctxDone (.ok []) after = [] ∧
      ∀ s, run lim p ctxDone (.ok []) after = some s →
        s.outcome = some (.failed "EOF") ∧ s.exit = none) ∧
    (DomainCounts lim p ctxDone (.ok (.error err :: tail)) [] = some (.failed err) ∧
      received lim p ctxDone (.ok (.error err :: tail)) after = [] ∧
      ∀ s, run lim p ctxDone (.ok (.error err :: tail)) after = some s →
        s.outcome = some (.failed err) ∧ s.exit = none) := by
  have hneg : ¬ (p.BufferSize < 0 ∨ (lim.maxCap : Int) < p.BufferSize
      ∨ (lim.maxWorkers : Int) < p.WorkerCount) := by omega
  have h₁ : start lim p ctxDone (.ok [])
      = ended (.failed "EOF") (List.replicate p.WorkerCount.toNat .idle) ctxDone := by
    simp [start, hneg]
  have h₂ : start lim p ctxDone (.ok (.error err :: tail))
      = ended (.failed err) (List.replicate p.WorkerCount.toNat .idle) ctxDone := by
    simp [start, hneg]
  have hended : ∀ (e : String) (ws : List WorkerState) (s : State),
      exec (ended (.failed e) ws ctxDone) after = some s →
      s.outcome = some (.failed e) ∧ s.exit = none := by
    intro e ws s hs
    exact ⟨exec_outcome_some (by simp [ended]) hs,
      by rw [exec_done hs (by simp [ended] : (ended (.failed e) ws ctxDone).outcome
        = some (.failed e)) (by simp [ended])]; simp [ended]⟩
  refine ⟨⟨by simp [DomainCounts, run, start], by simp [received, start]⟩, ?_, ?_, ?_,
    ⟨?_, ?_, ?_⟩, ⟨?_, ?_, ?_⟩⟩
  · obtain ⟨later, hl⟩ :=
      deliveries_prefix (start lim p ctxDone (.ok (.record header :: rest))) sched
    refine ⟨later, ?_⟩
    unfold received
    rw [hl, start_running lim p ctxDone header rest hB hB' hW']
    simp [flow, running, readerRow]
  · intro hW hctx hc L hL
    subst hctx
    refine ⟨received_of_returned hB hB' hW' hW hc hL, ?_⟩
    obtain ⟨pre, post, hsplit, hcall⟩ := DomainCounts_call hL
    exact returned_eq hW (not_mem_of_append_left hsplit hc) hcall
  · intro hW hctx hc hat s hrun
    subst hctx
    have hbad : ∀ row ∈ rows, isBad row = false := fun row hr => isBad_of_at (hat row hr)
    obtain ⟨more, o, hm, ho⟩ := anyRun_completes hrun
    have hcm : Action.cancel ∉ sched ++ more := by
      simp only [List.mem_append, not_or]
      exact ⟨hc, hm⟩
    obtain ⟨pre, post, hsplit, hcall⟩ := DomainCounts_call ho
    have hret := clean_outcome hW hB hB' hW' hbad (not_mem_of_append_left hsplit hcm) hcall
    rw [hret] at ho
    refine ⟨more, _, hm, ho, ?_⟩
    rw [received_of_returned hB hB' hW' hW hcm ho, recordRows_map_record]
  · simp [DomainCounts, run, exec, h₁, ended]
  · unfold received
    rw [h₁]
    exact deliveries_of_flow_nil (by simp [flow, ended, readerRow, recordRows]) after
  · intro s hs
    unfold run at hs
    rw [h₁] at hs
    exact hended _ _ s hs
  · simp [DomainCounts, run, exec, h₂, ended]
  · unfold received
    rw [h₂]
    exact deliveries_of_flow_nil (by simp [flow, ended, readerRow, recordRows]) after
  · intro s hs
    unfold run at hs
    rw [h₂] at hs
    exact hended _ _ s hs

/-- Witness of C9 (amended): the sample header replaced by a record that looks
like a data row; one worker, unbuffered channels, one data row: the call
returns the count of the data row alone, and the worker has received that row
alone.  On the empty file the call has failed with `io.EOF`, and stays so
when the context is cancelled afterwards and the worker leaves. -/
theorem header_discarded_witness :
    (DomainCounts sampleLimits oneWorker false
        (.ok (.record ["9", "zed", "z@header.org", "M"] ::
          [.record ["1", "ann", "a@x.com", "F"]])) oneRowSchedule
      = some (.returned [⟨"x.com", 1⟩]) ∧
    received sampleLimits oneWorker false
        (.ok (.record ["9", "zed", "z@header.org", "M"] ::
          [.record ["1", "ann", "a@x.com", "F"]])) oneRowSchedule
      = [["1", "ann", "a@x.com", "F"]] ∧
    DomainCounts sampleLimits oneWorker false (.ok []) [.cancel, .ctxExit 0]
      = some (.failed "EOF")) ∧
    ((DomainCounts sampleLimits oneWorker false
          (.ok (.record sampleHeader :: [.record ["1", "ann", "a@x.com", "F"]]))
          oneRowSchedule
        = DomainCounts sampleLimits oneWorker false
          (.ok (.record ["9", "zed", "z@header.org", "M"] ::
            [.record ["1", "ann", "a@x.com", "F"]])) oneRowSchedule ∧
      received sampleLimits oneWorker false
          (.ok (.record sampleHeader :: [.record ["1", "ann", "a@x.com", "F"]]))
          oneRowSchedule
        = received sampleLimits oneWorker false
          (.ok (.record ["9", "zed", "z@header.org", "M"] ::
            [.record ["1", "ann", "a@x.com", "F"]])) oneRowSchedule) ∧
    (∃ later, received sampleLimits oneWorker false
        (.ok (.record sampleHeader :: [.record ["1", "ann", "a@x.com", "F"]]))
        oneRowSchedule ++ later
      = recordRows [.record ["1", "ann", "a@x.com", "F"]]) ∧
    (1 ≤ oneWorker.WorkerCount → false = false → Action.cancel ∉ oneRowSchedule →
      ∀ L, DomainCounts sampleLimits oneWorker false
          (.ok (.record sampleHeader :: [.record ["1", "ann", "a@x.com", "F"]]))
          oneRowSchedule = some (.returned L) →
        received sampleLimits oneWorker false
          (.ok (.record sampleHeader :: [.record ["1", "ann", "a@x.com", "F"]]))
          oneRowSchedule = recordRows [.record ["1", "ann", "a@x.com", "F"]] ∧
        L = domainUsage (aggregate (sentDomains
          (recordRows [.record ["1", "ann", "a@x.com", "F"]])))) ∧
    (1 ≤ oneWorker.WorkerCount → false = false → Action.cancel ∉ oneRowSchedule →
      (∀ row ∈ ([["1", "ann", "a@x.com", "F"]] : List Row),
        row.length > 3 → '@' ∈ (row.getD 2 "").data) →
      ∀ s, run sampleLimits oneWorker false
        (.ok (.record sampleHeader ::
          ([["1", "ann", "a@x.com", "F"]] : List Row).map .record)) oneRowSchedule = some s →
        ∃ more L, Action.cancel ∉ more ∧
          DomainCounts sampleLimits oneWorker false
            (.ok (.record sampleHeader ::
              ([["1", "ann", "a@x.com", "F"]] : List Row).map .record))
            (oneRowSchedule ++ more) = some (.returned L) ∧
          received sampleLimits oneWorker false
            (.ok (.record sampleHeader ::
              ([["1", "ann", "a@x.com", "F"]] : List Row).map .record))
            (oneRowSchedule ++ more) = [["1", "ann", "a@x.com", "F"]]) ∧
    (DomainCounts sampleLimits oneWorker false (.ok []) [] = some (.failed "EOF") ∧
      received sampleLimits oneWorker false (.ok []) [.cancel, .ctxExit 0] = [] ∧
      ∀ s, run sampleLimits oneWorker false (.ok []) [.cancel, .ctxExit 0] = some s →
        s.outcome = some (.failed "EOF") ∧ s.exit = none) ∧
    (DomainCounts sampleLimits oneWorker false
        (.ok (.error "parse error on line 1" :: [])) []
        = some (.failed "parse error on line 1") ∧
      received sampleLimits oneWorker false
        (.ok (.error "parse error on line 1" :: [])) [.cancel, .ctxExit 0] = [] ∧
      ∀ s, run sampleLimits oneWorker false
        (.ok (.error "parse error on line 1" :: [])) [.cancel, .ctxExit 0] = some s →
        s.outcome = some (.failed "parse error on line 1") ∧ s.exit = none)) :=
  ⟨by decide,
    header_discarded sampleLimits oneWorker false sampleHeader
      ["9", "zed", "z@header.org", "M"] [.record ["1", "ann", "a@x.com", "F"]]
      [["1", "ann", "a@x.com", "F"]] "parse error on line 1" [] oneRowSchedule
      [.cancel, .ctxExit 0] (by decide) (by decide) (by decide)⟩

/-- C10 (counterexample): without workers, a decode error the reader reaches
before the caller leaves ends the call in `log.Fatal`; a negative buffer size
ends it in the panic of `make`; and on the sample file, whose rows are all
well-formed, the call returns the empty list and the reader goroutine it
leaves behind then ends the process in `log.Fatal` on the closed file. -/
theorem no_workers_returns_empty_counterexample :
    DomainCounts sampleLimits noWorkersBuffered false brokenFile [.read, .sendRow, .read]
      = some (.fatal "parse error on line 3") ∧
    DomainCounts sampleLimits noWorkersNegative false sampleFile [] = some .panicked ∧
    DomainCounts sampleLimits noWorkersBuffered false sampleFile
        [.closeResults, .mainReturn, .read, .sendRow, .read, .sendRow, .read, .sendRow, .read]
      = some (.returned []) ∧
    processExit sampleLimits noWorkersBuffered false sampleFile
        [.closeResults, .mainReturn, .read, .sendRow, .read, .sendRow, .read, .sendRow, .read]
      = some fileAlreadyClosed := by
  decide

/-- C10 (amended): with a worker count of zero or less and a buffer size that
`make` accepts, on a file whose header reads: closing `results` and returning
the empty list with a nil error is a schedule of the call, however many rows
there are; the call ends in no other way, except in `log.Fatal` of a decode
error of the file that the reader goroutine reaches before the caller leaves;
no worker exists, no row is received and nothing is sent on `results`; every
run is of bounded length and, while the call has not ended, can be completed
by the return of the empty list.  The reader goroutine is left behind by the
return: the process is ended afterwards by nothing but its `log.Fatal`, on the
closed file or on a decode error; it is ended so when the first read after
the return needs the file, and when `rows` has room for every row of a file
of rows and all of them are read after the return. -/
theorem no_workers_returns_empty (lim : Limits) (p : ParserConfig) (ctxDone : Bool)
    (header : Row) (rest : List ReadResult) (rows : List Row) (sched : List Action)
    (hW : p.WorkerCount ≤ 0) (hB : 0 ≤ p.BufferSize) (hB' : p.BufferSize ≤ lim.maxCap) :
    DomainCounts lim p ctxDone (.ok (.record header :: rest)) [.closeResults, .mainReturn]
      = some (.returned []) ∧
    (∀ o, DomainCounts lim p ctxDone (.ok (.record header :: rest)) sched = some o →
      o = .returned [] ∨ ∃ e, o = .fatal e ∧ ReadResult.error e ∈ rest) ∧
    received lim p ctxDone (.ok (.record header :: rest)) sched = [] ∧
    (∀ s, run lim p ctxDone (.ok (.record header :: rest)) sched = some s →
      sched.length ≤ 7 * rest.length + 5 ∧ s.workers = [] ∧ s.resultsBuf = [] ∧
      (s.outcome = none → ∃ more, Action.cancel ∉ more ∧
        DomainCounts lim p ctxDone (.ok (.record header :: rest)) (sched ++ more)
          = some (.returned []))) ∧
    (∀ e, processExit lim p ctxDone (.ok (.record header :: rest)) sched = some e →
      e = fileAlreadyClosed ∨ ReadResult.error e ∈ rest) ∧
    processExit lim p ctxDone (.ok (.record header :: rest))
      [.closeResults, .mainReturn, .readClosed] = some fileAlreadyClosed ∧
    ((rows.length : Int) ≤ p.BufferSize →
      DomainCounts lim p ctxDone (.ok (.record header :: rows.map .record))
        ([.closeResults, .mainReturn] ++ fillSchedule rows) = some (.returned []) ∧
      processExit lim p ctxDone (.ok (.record header :: rows.map .record))
        ([.closeResults, .mainReturn] ++ fillSchedule rows) = some fileAlreadyClosed) := by
  have hn : p.WorkerCount.toNat = 0 := by omega
  have hW' : p.WorkerCount ≤ lim.maxWorkers := by omega
  have hstart : ∀ rest : List ReadResult, start lim p ctxDone (.ok (.record header :: rest))
      = running rest .reading [] [] false ctxDone p.BufferSize.toNat := by
    intro rest
    rw [start_running lim p ctxDone header rest hB hB' hW', hn]
    rfl
  have hst := hstart rest
  refine ⟨?_, ?_, ?_, ?_, ?_, ?_, ?_⟩
  · simp [DomainCounts, run, hst, exec, step, callStep, running, domainUsage, sortStrings]
  · intro o ho
    obtain ⟨pre, post, hsplit, hcall⟩ := DomainCounts_call ho
    obtain ⟨s', hrun, hout⟩ := DomainCounts_eq_some.1 hcall
    unfold callRun at hrun
    rw [hst] at hrun
    obtain ⟨pre', s₀, a, hpre, hstep⟩ := exec_last hrun (by simp [running]) (by simp [hout])
    have hw₀ : s₀.workers = [] :=
      List.eq_nil_of_length_eq_zero (by rw [exec_workers_length hpre]; rfl)
    cases o with
    | failed e => exact absurd hout (step_not_failed hstep e)
    | fatal e =>
      have hmem := exec_pending hpre _ (step_fatal hstep e hout)
      exact Or.inr ⟨e, rfl, by simpa [running] using hmem⟩
    | panicked => exact absurd hw₀ (step_panicked hstep hout)
    | returned L =>
      obtain ⟨_, _, hL⟩ := step_returned hstep L hout
      have := (exec_idle_pool hrun (by simp [running]) (by simp [running])).2
      rw [hL, this]
      exact Or.inl rfl
  · unfold received
    rw [hst]
    exact deliveries_no_workers (by simp [running]) (by simp [running]) sched
  · intro s hrun
    have hrun' := hrun
    unfold run at hrun'
    rw [hst] at hrun'
    obtain ⟨hws, hrs⟩ := exec_no_workers hrun' (by simp [running]) (by simp [running])
    refine ⟨by simpa [hn] using anyRun_length hrun, hws, hrs, fun hnone => ?_⟩
    obtain ⟨pre, post, s₁, hsplit, hcall, hafter, hoeq, hpost⟩ := exec_split hrun'
    have hpost' := hpost (by rw [← hoeq, hnone])
    subst hpost'
    simp only [exec, Option.some.injEq] at hafter
    subst hafter
    simp only [List.append_nil] at hsplit
    subst hsplit
    obtain ⟨more, s', hm, hex, hret⟩ := no_workers_completion hnone hws
      (exec_idle_pool hcall (by simp [running]) (by simp [running]))
    refine ⟨more, hm, call_DomainCounts (DomainCounts_eq_some.2 ⟨s', ?_, hret⟩)⟩
    unfold callRun
    rw [hst, exec_append, hcall]
    exact hex
  · intro e he
    unfold processExit at he
    cases hrun : run lim p ctxDone (.ok (.record header :: rest)) sched with
    | none => simp [hrun] at he
    | some s =>
      rw [hrun] at he
      simp only [Option.some_bind] at he
      unfold run at hrun
      rw [hst] at hrun
      obtain ⟨pre, post, s₁, hsplit, hcall, hafter, hoeq, hpost⟩ := exec_split hrun
      have hx₁ : s₁.exit = none := by
        rw [callExec_exit hcall]
        rfl
      cases ho₁ : s₁.outcome with
      | none =>
        have hp := hpost ho₁
        subst hp
        simp only [exec, Option.some.injEq] at hafter
        rw [← hafter, hx₁] at he
        simp at he
      | some o =>
        rcases exec_exit hafter ho₁ hx₁ e he with hclosed | hmem
        · exact Or.inl hclosed
        · have := exec_pending hcall _ hmem
          exact Or.inr (by simpa [running] using this)
  · simp [processExit, run, hst, exec, step, callStep, afterStep, running, domainUsage,
      sortStrings]
  · intro hlen
    have hcap : ([] : List Row).length + rows.length ≤ p.BufferSize.toNat := by
      simp only [List.length_nil]
      omega
    have hret : exec (running (rows.map .record) .reading [] [] false ctxDone
        p.BufferSize.toNat) [.closeResults, .mainReturn]
        = some { pending := rows.map .record, reader := .reading, rowsBuf := [],
                 workers := [], resultsBuf := [], resultsClosed := true,
                 domainUserCount := [], ctxDone := ctxDone,
                 bufferSize := p.BufferSize.toNat, outcome := some (.returned []),
                 exit := none } := by
      simp [exec, step, callStep, running, domainUsage, sortStrings]
    have hall := exec_fillSchedule rows [] ctxDone p.BufferSize.toNat hcap
    constructor
    · unfold DomainCounts run
      rw [hstart, anyExec_append, hret, Option.some_bind, hall]
      rfl
    · unfold processExit run
      rw [hstart, anyExec_append, hret, Option.some_bind, hall]
      rfl

/-- Witness of C10 (amended): no worker and channels of capacity ten on two
rows of the sample file; the caller returns the empty list at once, the reader
goroutine then reads both rows and fails on the closed file. -/
theorem no_workers_returns_empty_witness :
    (DomainCounts sampleLimits noWorkersBuffered false
      (.ok (.record sampleHeader :: [.record ["1", "ann", "a@x.com", "F"],
        .record ["2", "bob", "b@y.com", "M"]]))
      noWorkersSchedule = some (.returned []) ∧
    processExit sampleLimits noWorkersBuffered false
      (.ok (.record sampleHeader :: [.record ["1", "ann", "a@x.com", "F"],
        .record ["2", "bob", "b@y.com", "M"]]))
      noWorkersSchedule = some fileAlreadyClosed) ∧
    (DomainCounts sampleLimits noWorkersBuffered false
      (.ok (.record sampleHeader :: [.record ["1", "ann", "a@x.com", "F"],
        .record ["2", "bob", "b@y.com", "M"]]))
      [.closeResults, .mainReturn] = some (.returned []) ∧
    (∀ o, DomainCounts sampleLimits noWorkersBuffered false
      (.ok (.record sampleHeader :: [.record ["1", "ann", "a@x.com", "F"],
        .record ["2", "bob", "b@y.com", "M"]]))
      noWorkersSchedule = some o →
      o = .returned [] ∨ ∃ e, o = .fatal e ∧
        ReadResult.error e ∈ [ReadResult.record ["1", "ann", "a@x.com", "F"],
          .record ["2", "bob", "b@y.com", "M"]]) ∧
    received sampleLimits noWorkersBuffered false
      (.ok (.record sampleHeader :: [.record ["1", "ann", "a@x.com", "F"],
        .record ["2", "bob", "b@y.com", "M"]]))
      noWorkersSchedule = [] ∧
    (∀ s, run sampleLimits noWorkersBuffered false
      (.ok (.record sampleHeader :: [.record ["1", "ann", "a@x.com", "F"],
        .record ["2", "bob", "b@y.com", "M"]]))
      noWorkersSchedule = some s →
      noWorkersSchedule.length
        ≤ 7 * [ReadResult.record ["1", "ann", "a@x.com", "F"],
          .record ["2", "bob", "b@y.com", "M"]].length + 5 ∧
      s.workers = [] ∧ s.resultsBuf = [] ∧
      (s.outcome = none → ∃ more, Action.cancel ∉ more ∧
        DomainCounts sampleLimits noWorkersBuffered false
          (.ok (.record sampleHeader :: [.record ["1", "ann", "a@x.com", "F"],
            .record ["2", "bob", "b@y.com", "M"]]))
          (noWorkersSchedule ++ more) = some (.returned []))) ∧
    (∀ e, processExit sampleLimits noWorkersBuffered false
      (.ok (.record sampleHeader :: [.record ["1", "ann", "a@x.com", "F"],
        .record ["2", "bob", "b@y.com", "M"]]))
      noWorkersSchedule = some e →
      e = fileAlreadyClosed ∨
        ReadResult.error e ∈ [ReadResult.record ["1", "ann", "a@x.com", "F"],
          .record ["2", "bob", "b@y.com", "M"]]) ∧
    processExit sampleLimits noWorkersBuffered false
      (.ok (.record sampleHeader :: [.record ["1", "ann", "a@x.com", "F"],
        .record ["2", "bob", "b@y.com", "M"]]))
      [.closeResults, .mainReturn, .readClosed] = some fileAlreadyClosed ∧
    (((([["1", "ann", "a@x.com", "F"], ["2", "bob", "b@y.com", "M"]] : List Row).length
        : Nat) : Int) ≤ noWorkersBuffered.BufferSize →
      DomainCounts sampleLimits noWorkersBuffered false
        (.ok (.record sampleHeader :: ([["1", "ann", "a@x.com", "F"],
          ["2", "bob", "b@y.com", "M"]] : List Row).map .record))
        ([.closeResults, .mainReturn] ++ fillSchedule
          [["1", "ann", "a@x.com", "F"], ["2", "bob", "b@y.com", "M"]])
        = some (.returned []) ∧
      processExit sampleLimits noWorkersBuffered false
        (.ok (.record sampleHeader :: ([["1", "ann", "a@x.com", "F"],
          ["2", "bob", "b@y.com", "M"]] : List Row).map .record))
        ([.closeResults, .mainReturn] ++ fillSchedule
          [["1", "ann", "a@x.com", "F"], ["2", "bob", "b@y.com", "M"]])
        = some fileAlreadyClosed)) :=
  ⟨by decide,
    no_workers_returns_empty sampleLimits noWorkersBuffered false sampleHeader
      [.record ["1", "ann", "a@x.com", "F"], .record ["2", "bob", "b@y.com", "M"]]
      [["1", "ann", "a@x.com", "F"], ["2", "bob", "b@y.com", "M"]]
      noWorkersSchedule (by decide) (by decide) (by decide)⟩

end EmailDomainStats
